import Mathlib

/-!
# telemetrygen logs: orchestrator `Run` and worker `simulateLogs`

A shallow embedding of `cmd/telemetrygen/internal/logs/logs.go` (function `Run`)
and `cmd/telemetrygen/internal/logs/worker.go` (method `worker.simulateLogs`).

Every thread of the program is embedded as a function producing the ordered
list of the actions it performs (`Op`).  What a thread cannot decide by itself
is supplied from outside: the value each `running.Load()` returns, and whether
each `exporter.export` / `limiter.Wait` call succeeds.  Loops that the source
leaves unbounded take a fuel argument; an exhausted fuel is reported as such
and is never confused with a normal stop.
-/

namespace Logs

/-! ## Data model -/

/-- The type `rate.Limit` restricted to the two ways `Run` builds one:
the sentinel `rate.Inf` and the conversion `rate.Limit(c.Rate)`. -/
inductive Limit where
  | Inf
  | ofRate (r : Int)
  deriving DecidableEq

/-- Modelled from the spec: the `Config` struct read by `Run` (its declaration,
`config.go`, is outside the embedded files).  Only the four fields that `Run`
reads are kept: `NumLogs` (`int`), `TotalDuration` (`time.Duration`, an integer
number of nanoseconds), `WorkerCount` (`int`) and `Rate`.  Of `Rate`, `Run`
uses only the comparison with `0` and the conversion `rate.Limit(c.Rate)`; the
field is carried as an integer and the conversion is kept symbolic
(`Limit.ofRate`). -/
structure Config where
  WorkerCount : Int
  Rate : Int
  TotalDuration : Int
  NumLogs : Int
  deriving DecidableEq

/-- The `worker` struct of `worker.go`.  The fields `running`, `wg` and `logger`
are references to the single flag, wait group and logger of the run; they carry
no data of their own and appear through the actions performed on them. -/
structure worker where
  numLogs : Int
  totalDuration : Int
  limitPerSecond : Limit
  index : Int
  deriving DecidableEq

/-- The observable actions of the orchestrator and of the workers. -/
inductive Op where
  /-- The call `logger.Info("generation of logs isn't being throttled")`. -/
  | logUnthrottled
  /-- The call `logger.Info("generation of logs is limited", ...)`. -/
  | logLimited (limit : Limit)
  /-- The statement `wg := sync.WaitGroup{}`. -/
  | newWaitGroup
  /-- The statement `running := atomic.NewBool(b)`. -/
  | newFlag (b : Bool)
  /-- The statement `res := resource.NewWithAttributes(...)`. -/
  | newResource
  /-- The call `wg.Add(n)`. -/
  | wgAdd (n : Int)
  /-- The statement `go w.simulateLogs(res, exp)`. -/
  | go (w : worker)
  /-- The call `time.Sleep(d)`. -/
  | sleep (d : Int)
  /-- The call `running.Store(b)`. -/
  | store (b : Bool)
  /-- The call `wg.Wait()`. -/
  | wgWait
  /-- The statement `limiter := rate.NewLimiter(limit, burst)`. -/
  | newLimiter (limit : Limit) (burst : Int)
  /-- The call `w.running.Load()`, with the value it returned. -/
  | load (b : Bool)
  /-- Construction of one `plog.Logs` holding one record (lines 45 to 57). -/
  | build
  /-- The call `exporter.export(logs)`; `ok` tells whether it returned a nil error. -/
  | exportCall (ok : Bool)
  /-- The call `limiter.Wait(ctx)`; `ok` tells whether it returned a nil error. -/
  | wait (ok : Bool)
  /-- The statement `i++` followed by the test `w.numLogs != 0 && i >= int64(w.numLogs)`:
  the new value of `i` and whether the test made the loop break. -/
  | countCheck (i : Int) (stop : Bool)
  /-- The call `w.logger.Fatal(...)`: logs and ends the process. -/
  | fatal
  /-- The call `w.logger.Info("logs generated", zap.Int64("logs", i))`. -/
  | info (i : Int)
  /-- The call `w.wg.Done()`. -/
  | wgDone
  deriving DecidableEq

/-- Result of `i++` on an `int64`: two's complement wrap-around. -/
def int64Wrap (x : Int) : Int :=
  (x + 9223372036854775808) % 18446744073709551616 - 9223372036854775808

/-! ## The worker -/

/-- What one worker meets during its life: `running n` is the value returned by
its `n`-th `running.Load()`, `exportOk n` tells whether its `n`-th
`exporter.export` succeeds and `waitOk n` whether its `n`-th `limiter.Wait`
succeeds (all counted from 0; the loop performs at most one of each per
iteration, so the index is the iteration number). -/
structure WorkerEnv where
  running : Nat → Bool
  exportOk : Nat → Bool
  waitOk : Nat → Bool

/-- How the `for` loop of `simulateLogs` was left. -/
inductive LoopExit where
  /-- the condition read false or `break` was executed; `i` is the counter -/
  | left (i : Int)
  /-- The worker called `logger.Fatal`. -/
  | fatal
  /-- the fuel ran out while the loop was still going -/
  | outOfFuel
  deriving DecidableEq

/-- The loop `for w.running.Load() { ... }` of `simulateLogs` (lines 44 to 70),
started at iteration `n` with counter `i`. -/
def loop (w : worker) (env : WorkerEnv) : Nat → Nat → Int → List Op × LoopExit
  | 0, _, _ => ([], LoopExit.outOfFuel)
  | fuel + 1, n, i =>
    if env.running n then
      if env.exportOk n then
        if env.waitOk n then
          let i1 := int64Wrap (i + 1)
          if w.numLogs ≠ 0 ∧ i1 ≥ w.numLogs then
            ([Op.load true, Op.build, Op.exportCall true, Op.wait true,
              Op.countCheck i1 true], LoopExit.left i1)
          else
            let r := loop w env fuel (n + 1) i1
            ([Op.load true, Op.build, Op.exportCall true, Op.wait true,
              Op.countCheck i1 false] ++ r.1, r.2)
        else
          ([Op.load true, Op.build, Op.exportCall true, Op.wait false, Op.fatal],
            LoopExit.fatal)
      else
        ([Op.load true, Op.build, Op.exportCall false, Op.fatal], LoopExit.fatal)
    else
      ([Op.load false], LoopExit.left i)

/-- How a worker ended. -/
inductive Ending where
  /-- the function returned: final count logged, `wg.Done()` called -/
  | stopped (i : Int)
  /-- the process was ended by `logger.Fatal` -/
  | fatal
  /-- still looping when the fuel ran out -/
  | running
  deriving DecidableEq

/-- An execution of one worker: its actions in order and how it ended. -/
structure Exec where
  trace : List Op
  ending : Ending
  deriving DecidableEq

/-- The method `worker.simulateLogs` (lines 40 to 74). -/
def simulateLogs (w : worker) (env : WorkerEnv) (fuel : Nat) : Exec :=
  let r := loop w env fuel 0 0
  match r.2 with
  | LoopExit.left i =>
    ⟨Op.newLimiter w.limitPerSecond 1 :: (r.1 ++ [Op.info i, Op.wgDone]), Ending.stopped i⟩
  | LoopExit.fatal => ⟨Op.newLimiter w.limitPerSecond 1 :: r.1, Ending.fatal⟩
  | LoopExit.outOfFuel => ⟨Op.newLimiter w.limitPerSecond 1 :: r.1, Ending.running⟩

/-! ## The orchestrator -/

/-- What a call of `Run` leaves behind: the configuration after the call (`c`
is a pointer and `Run` writes `c.NumLogs`), the orchestrator's own actions in
order, and the returned error (`none` is `nil`).  A `nil` return stands after
the last action of the trace, `wg.Wait()`, has come back. -/
structure RunResult where
  cfg : Config
  trace : List Op
  err : Option String
  deriving DecidableEq

/-- One turn of the loop `for i := 0; i < c.WorkerCount; i++` (lines 104 to 117). -/
def spawn (c : Config) (limit : Limit) (i : Nat) : List Op :=
  [Op.wgAdd 1,
   Op.go { numLogs := c.NumLogs, limitPerSecond := limit,
           totalDuration := c.TotalDuration, index := i }]

/-- Lines 92 to 98 of `Run`: the limit handed to the workers. -/
def resolveLimit (c : Config) : Limit :=
  if c.Rate = 0 then Limit.Inf else Limit.ofRate c.Rate

/-- Lines 92 to 123 of `Run`, entered once the termination policy is settled. -/
def runBody (c : Config) : RunResult :=
  let limit := resolveLimit c
  let logged := if c.Rate = 0 then Op.logUnthrottled else Op.logLimited limit
  let spawned := ((List.range c.WorkerCount.toNat).map (spawn c limit)).flatten
  let timed := if c.TotalDuration > 0 then [Op.sleep c.TotalDuration, Op.store false] else []
  ⟨c, [logged, Op.newWaitGroup, Op.newFlag true, Op.newResource] ++ spawned ++ timed
        ++ [Op.wgWait], none⟩

/-- The function `Run` (lines 85 to 124). -/
def Run (c : Config) : RunResult :=
  if c.TotalDuration > 0 then
    runBody { c with NumLogs := 0 }
  else if c.NumLogs ≤ 0 then
    ⟨c, [], some "either `logs` or `duration` must be greater than 0"⟩
  else
    runBody c

/-! ## The whole run -/

/-- The workers started by a trace of the orchestrator, in starting order. -/
def spawnedWorkers : List Op → List worker
  | [] => []
  | Op.go w :: t => w :: spawnedWorkers t
  | _ :: t => spawnedWorkers t

/-- Effect of one action on the stop flag: only creation and `Store` set it. -/
def flagStep (v : Bool) : Op → Bool
  | Op.newFlag b => b
  | Op.store b => b
  | _ => v

/-- Value of the stop flag after the actions `t`. -/
def flagAfter (t : List Op) : Bool :=
  t.foldl flagStep false

/-- Whether an action is a `running.Store`. -/
def isStore : Op → Bool
  | Op.store _ => true
  | _ => false

/-- Whether an action is a call of `exporter.export`. -/
def isExport : Op → Bool
  | Op.exportCall _ => true
  | _ => false

/-- Whether an action is a read of the stop flag. -/
def isLoad : Op → Bool
  | Op.load _ => true
  | _ => false

/-- Whether an action is a call of `limiter.Wait`. -/
def isWait : Op → Bool
  | Op.wait _ => true
  | _ => false

/-- Number of `exporter.export` calls in a trace. -/
def exports (t : List Op) : Nat :=
  t.countP isExport

/-- Effect of one action on the counter of the wait group. -/
def wgDelta : Op → Int
  | Op.wgAdd n => n
  | Op.wgDone => -1
  | _ => 0

/-- Number of `running.Load()` calls in a trace. -/
def loads (t : List Op) : Nat :=
  t.countP isLoad

/-- Counter of the wait group after the actions `t`. -/
def barrier (t : List Op) : Int :=
  (t.map wgDelta).sum

/-- What the threads of one run do not decide themselves: the behaviour of the
sink and of the limiters (per worker and per call) and, for each worker, how
many of its `running.Load()` calls are served before the orchestrator's
`running.Store` (the scheduler's choice). -/
structure World where
  exportOk : Nat → Nat → Bool
  waitOk : Nat → Nat → Bool
  loadsBeforeStore : Nat → Nat

/-- The surroundings of worker `j` in a run whose orchestrator performs `t`:
a `Load` served before the orchestrator's first `Store` reads the flag as it
was before that `Store`, a later one reads it as the orchestrator leaves it.
Without a `Store` in `t` both are the same value. -/
def workerEnv (t : List Op) (world : World) (j : Nat) : WorkerEnv where
  running := fun n =>
    if n < world.loadsBeforeStore j then flagAfter (t.takeWhile (fun op => !isStore op))
    else flagAfter t
  exportOk := world.exportOk j
  waitOk := world.waitOk j

/-- How a run ended. -/
inductive Outcome where
  /-- The function `Run` returned the configuration error. -/
  | configError (msg : String)
  /-- The call `wg.Wait()` came back and `Run` returned `nil`. -/
  | returnedNil
  /-- a worker called `logger.Fatal` -/
  | processExit
  /-- the orchestrator is in `wg.Wait()` and some worker is still looping -/
  | waiting
  deriving DecidableEq

/-- A run of `Run` together with the workers it started. -/
structure SystemRun where
  orchestrator : RunResult
  workers : List Exec
  outcome : Outcome
  deriving DecidableEq

/-- Executions of the workers `ws`, the first of them being the `j`-th started
worker of the run and living in `workerEnv t world j`. -/
def runWorkersFrom (t : List Op) (world : World) (fuel : Nat) : Nat → List worker → List Exec
  | _, [] => []
  | j, w :: ws =>
    simulateLogs w (workerEnv t world j) fuel :: runWorkersFrom t world fuel (j + 1) ws

/-- Executions of the workers started by the orchestrator trace `t`. -/
def runWorkers (t : List Op) (world : World) (fuel : Nat) : List Exec :=
  runWorkersFrom t world fuel 0 (spawnedWorkers t)

/-- Whether a worker ended by returning from `simulateLogs`. -/
def Exec.isStopped (e : Exec) : Bool :=
  match e.ending with
  | Ending.stopped _ => true
  | _ => false

/-- Whether a worker ended in `logger.Fatal`. -/
def Exec.isFatal (e : Exec) : Bool :=
  match e.ending with
  | Ending.fatal => true
  | _ => false

/-- `Run` and its workers: a configuration error ends the run at once; a worker
reaching `logger.Fatal` ends the process; `wg.Wait()` comes back, and `Run`
returns `nil`, when every started worker has returned. -/
def runSystem (c : Config) (world : World) (fuel : Nat) : SystemRun :=
  let r := Run c
  let ws := runWorkers r.trace world fuel
  match r.err with
  | some msg => ⟨r, ws, Outcome.configError msg⟩
  | none =>
    if ws.any Exec.isFatal then ⟨r, ws, Outcome.processExit⟩
    else if ws.all Exec.isStopped then ⟨r, ws, Outcome.returnedNil⟩
    else ⟨r, ws, Outcome.waiting⟩

/-- Number of `exporter.export` calls made by all workers of a run together. -/
def SystemRun.totalExports (s : SystemRun) : Nat :=
  (s.workers.map (fun e => exports e.trace)).sum

/-- The actions of the workers `es` performed so far, when the worker at
position `k` of `es` has performed the first `progress (j + k)` of its own. -/
def progressOf (progress : Nat → Nat) : Nat → List Exec → List Op
  | _, [] => []
  | j, e :: es => e.trace.take (progress j) ++ progressOf progress (j + 1) es

/-- The actions performed so far when the orchestrator has performed all of its
own and the `j`-th worker the first `progress j` of its own. -/
def SystemRun.snapshot (s : SystemRun) (progress : Nat → Nat) : List Op :=
  s.orchestrator.trace ++ progressOf progress 0 s.workers

/-- The actions of one loop iteration that runs to its end: flag read, record
construction, export, limiter wait, count check. -/
def iteration (i : Int) (stop : Bool) : List Op :=
  [Op.load true, Op.build, Op.exportCall true, Op.wait true, Op.countCheck i stop]

/-- The actions of a sequence of loop iterations that ran to their end, given
the counter value and the result of the count check of each. -/
def blocks (iters : List (Int × Bool)) : List Op :=
  (iters.map (fun p => iteration p.1 p.2)).flatten

/-- Whether an action is a failed call of the sink or of the limiter. -/
def isFailed : Op → Bool
  | Op.exportCall false => true
  | Op.wait false => true
  | _ => false

/-- Whether every failed call in a trace is followed by `logger.Fatal` and by
nothing else. -/
def failFast : List Op → Bool
  | [] => true
  | op :: t => (!isFailed op || decide (t = [Op.fatal])) && failFast t

/-- Whether an action is one of those making up a loop iteration that runs to
its end. -/
def inBlock : Op → Bool
  | Op.load true => true
  | Op.build => true
  | Op.exportCall true => true
  | Op.wait true => true
  | Op.countCheck _ _ => true
  | _ => false

/-- The actions of a trace that come before its first `exporter.export` call
(the whole trace when it holds none). -/
def beforeFirstExport (t : List Op) : List Op :=
  t.takeWhile (fun op => !isExport op)

/-- The order of steps in which a rate token is acquired before the export:
every `exporter.export` call of the trace has a `limiter.Wait` somewhere before
it. -/
def AcquiresBeforeExports (t : List Op) : Prop :=
  ∀ (pre post : List Op) (ok : Bool), t = pre ++ Op.exportCall ok :: post →
    ∃ op, op ∈ pre ∧ isWait op = true

/-- Whether an action creates a limiter. -/
def isNewLimiter : Op → Bool
  | Op.newLimiter _ _ => true
  | _ => false

/-- The worker built in turn `i` of the loop of `Run`, by lines 106 to 114. -/
def workerOf (c : Config) (i : Nat) : worker :=
  { numLogs := c.NumLogs, limitPerSecond := resolveLimit c,
    totalDuration := c.TotalDuration, index := (i : Int) }

/-- The actions of the loop of lines 104 to 117. -/
def spawnAll (c : Config) : List Op :=
  ((List.range c.WorkerCount.toNat).map (spawn c (resolveLimit c))).flatten

/-- The actions of lines 118 to 121. -/
def timed (c : Config) : List Op :=
  if c.TotalDuration > 0 then [Op.sleep c.TotalDuration, Op.store false] else []

/-- The first log line of `Run`, lines 93 to 98. -/
def logged (c : Config) : Op :=
  if c.Rate = 0 then Op.logUnthrottled else Op.logLimited (resolveLimit c)

/-- Whether an action is a `wg.Add(1)` or the start of a worker. -/
def isSpawn : Op → Bool
  | Op.wgAdd 1 => true
  | Op.go _ => true
  | _ => false

/-- An execution calls `wg.Done()` once, as its last action, when the worker
returned, and not at all otherwise; no other action of it touches the wait
group. -/
def DoneOnce (e : Exec) : Prop :=
  (e.isStopped = true →
      ∃ body, e.trace = body ++ [Op.wgDone] ∧ ∀ op, op ∈ body → wgDelta op = 0)
  ∧ (e.isStopped = false → ∀ op, op ∈ e.trace → wgDelta op = 0)

/-- A sink and limiters that never fail. -/
def World.neverFails (world : World) : Prop :=
  ∀ j n, world.exportOk j n = true ∧ world.waitOk j n = true

/-! ## Lemmas -/

theorem int64Wrap_of_range (x : Int) (h0 : 0 ≤ x) (h1 : x < 9223372036854775808) :
    int64Wrap x = x := by
  unfold int64Wrap
  omega

theorem int64Wrap_succ (x : Int) : int64Wrap (int64Wrap x + 1) = int64Wrap (x + 1) := by
  unfold int64Wrap
  omega

/-- The loop of a worker with a positive target, a flag that always reads true
and calls that never fail: from counter `k` it runs `d + 1` more iterations. -/
theorem loop_count (w : worker) (env : WorkerEnv) (K : Nat)
    (hK : w.numLogs = (K : Int)) (hmax : (K : Int) < 9223372036854775808)
    (hrun : ∀ n, env.running n = true) (hexp : ∀ n, env.exportOk n = true)
    (hwait : ∀ n, env.waitOk n = true) :
    ∀ (d n k fuel : Nat), k + d + 1 = K → d + 1 ≤ fuel →
      loop w env fuel n (k : Int) =
        (((List.range' (k + 1) d).map (fun (m : Nat) => iteration (m : Int) false)).flatten
            ++ iteration (K : Int) true, LoopExit.left (K : Int)) := by
  intro d
  induction d with
  | zero =>
    intro n k fuel hk hf
    obtain ⟨f, rfl⟩ : ∃ f, fuel = f + 1 := ⟨fuel - 1, by omega⟩
    have hw : int64Wrap ((k : Int) + 1) = (K : Int) := by
      rw [int64Wrap_of_range _ (by omega) (by omega)]
      omega
    have hc : w.numLogs ≠ 0 ∧ (K : Int) ≥ w.numLogs := by
      rw [hK]
      constructor <;> omega
    simp [loop, hrun, hexp, hwait, hw, hc, iteration]
  | succ d ih =>
    intro n k fuel hk hf
    obtain ⟨f, rfl⟩ : ∃ f, fuel = f + 1 := ⟨fuel - 1, by omega⟩
    have hw : int64Wrap ((k : Int) + 1) = ((k + 1 : Nat) : Int) := by
      rw [int64Wrap_of_range _ (by omega) (by omega)]
      push_cast
      rfl
    have hc : ¬ (w.numLogs ≠ 0 ∧ ((k + 1 : Nat) : Int) ≥ w.numLogs) := by
      rw [hK]
      omega
    have hrec := ih (n + 1) (k + 1) f (by omega) (by omega)
    rw [loop]
    simp only [hrun, hexp, hwait, if_true]
    rw [hw, if_neg hc, hrec]
    simp [List.range'_succ, iteration]

/-- The loop of a worker without a target and with calls that never fail, whose
flag reads true up to read `n` and false at read `n`: from iteration `k` it
runs `d = n - k` more iterations and leaves at the next read. -/
theorem loop_flag (w : worker) (env : WorkerEnv) (n : Nat)
    (h0 : w.numLogs = 0) (hexp : ∀ m, env.exportOk m = true)
    (hwait : ∀ m, env.waitOk m = true)
    (htrue : ∀ m, m < n → env.running m = true) (hfalse : env.running n = false) :
    ∀ (d k fuel : Nat), k + d = n → d + 1 ≤ fuel →
      loop w env fuel k (int64Wrap (k : Int)) =
        (((List.range' (k + 1) d).map (fun (m : Nat) => iteration (int64Wrap (m : Int)) false)).flatten
            ++ [Op.load false], LoopExit.left (int64Wrap (n : Int))) := by
  intro d
  induction d with
  | zero =>
    intro k fuel hk hf
    obtain ⟨f, rfl⟩ : ∃ f, fuel = f + 1 := ⟨fuel - 1, by omega⟩
    have hkn : k = n := by omega
    subst hkn
    simp [loop, hfalse]
  | succ d ih =>
    intro k fuel hk hf
    obtain ⟨f, rfl⟩ : ∃ f, fuel = f + 1 := ⟨fuel - 1, by omega⟩
    have hw : int64Wrap (int64Wrap (k : Int) + 1) = int64Wrap ((k + 1 : Nat) : Int) := by
      rw [int64Wrap_succ]
      push_cast
      rfl
    have hrec := ih (k + 1) f (by omega) (by omega)
    rw [loop]
    simp only [htrue k (by omega), hexp, hwait, if_true]
    rw [hw, hrec]
    simp [h0, List.range'_succ, iteration]

theorem exports_append (a b : List Op) : exports (a ++ b) = exports a + exports b := by
  simp [exports, List.countP_append]

theorem loads_append (a b : List Op) : loads (a ++ b) = loads a + loads b := by
  simp [loads, List.countP_append]

theorem exports_iterations (l : List Nat) (f : Nat → Int) (b : Bool) :
    exports ((l.map (fun m => iteration (f m) b)).flatten) = l.length := by
  induction l with
  | nil => rfl
  | cons a l ih =>
    rw [List.map_cons, List.flatten_cons, exports_append, ih]
    simp [exports, iteration, isExport, List.countP_cons]
    omega

theorem loads_iterations (l : List Nat) (f : Nat → Int) (b : Bool) :
    loads ((l.map (fun m => iteration (f m) b)).flatten) = l.length := by
  induction l with
  | nil => rfl
  | cons a l ih =>
    rw [List.map_cons, List.flatten_cons, loads_append, ih]
    simp [loads, iteration, isLoad, List.countP_cons]
    omega

theorem blocks_cons (p : Int × Bool) (iters : List (Int × Bool)) :
    blocks (p :: iters) = iteration p.1 p.2 ++ blocks iters := by
  simp [blocks]

/-- Shape of the actions of the loop: iterations that ran to their end,
followed by the actions of the iteration in which the loop was left. -/
theorem loop_shape (w : worker) (env : WorkerEnv) :
    ∀ (fuel n : Nat) (i : Int), ∃ (iters : List (Int × Bool)) (tail : List Op),
      (loop w env fuel n i).1 = blocks iters ++ tail ∧
      (((loop w env fuel n i).2 = LoopExit.outOfFuel ∧ tail = [])
        ∨ (∃ j, (loop w env fuel n i).2 = LoopExit.left j ∧ (tail = [] ∨ tail = [Op.load false]))
        ∨ ((loop w env fuel n i).2 = LoopExit.fatal ∧
            (tail = [Op.load true, Op.build, Op.exportCall false, Op.fatal]
              ∨ tail = [Op.load true, Op.build, Op.exportCall true, Op.wait false, Op.fatal]))) := by
  intro fuel
  induction fuel with
  | zero =>
    intro n i
    exact ⟨[], [], by simp [loop, blocks], Or.inl ⟨by simp [loop], rfl⟩⟩
  | succ f ih =>
    intro n i
    by_cases hr : env.running n = true
    · by_cases he : env.exportOk n = true
      · by_cases hw : env.waitOk n = true
        · by_cases hc : w.numLogs ≠ 0 ∧ int64Wrap (i + 1) ≥ w.numLogs
          · refine ⟨[(int64Wrap (i + 1), true)], [], ?_, Or.inr (Or.inl ⟨int64Wrap (i + 1), ?_, Or.inl rfl⟩)⟩
            · simp [loop, hr, he, hw, hc, blocks, iteration]
            · simp [loop, hr, he, hw, hc]
          · obtain ⟨iters, tail, ht, hcase⟩ := ih (n + 1) (int64Wrap (i + 1))
            have h1 : (loop w env (f + 1) n i).1 =
                iteration (int64Wrap (i + 1)) false ++ (loop w env f (n + 1) (int64Wrap (i + 1))).1 := by
              rw [loop]
              simp only [hr, he, hw, if_true, if_neg hc]
              rfl
            have h2 : (loop w env (f + 1) n i).2 = (loop w env f (n + 1) (int64Wrap (i + 1))).2 := by
              rw [loop]
              simp only [hr, he, hw, if_true, if_neg hc]
            refine ⟨(int64Wrap (i + 1), false) :: iters, tail, ?_, ?_⟩
            · rw [h1, ht, blocks_cons, List.append_assoc]
            · rw [h2]
              exact hcase
        · refine ⟨[], _, ?_, Or.inr (Or.inr ⟨?_, Or.inr rfl⟩)⟩
          · simp [loop, hr, he, hw, blocks]
          · simp [loop, hr, he, hw]
      · refine ⟨[], _, ?_, Or.inr (Or.inr ⟨?_, Or.inl rfl⟩)⟩
        · simp [loop, hr, he, blocks]
        · simp [loop, hr, he]
    · refine ⟨[], _, ?_, Or.inr (Or.inl ⟨i, ?_, Or.inr rfl⟩)⟩
      · simp [loop, hr, blocks]
      · simp [loop, hr]

/-- Shape of the actions of a worker: creation of its limiter, iterations that
ran to their end, and what the way it ended adds. -/
theorem simulateLogs_shape (w : worker) (env : WorkerEnv) (fuel : Nat) :
    ∃ (iters : List (Int × Bool)) (tail : List Op),
      (simulateLogs w env fuel).trace
          = Op.newLimiter w.limitPerSecond 1 :: (blocks iters ++ tail) ∧
      (((simulateLogs w env fuel).ending = Ending.running ∧ tail = [])
        ∨ (∃ j, (simulateLogs w env fuel).ending = Ending.stopped j ∧
            (tail = [Op.info j, Op.wgDone] ∨ tail = [Op.load false, Op.info j, Op.wgDone]))
        ∨ ((simulateLogs w env fuel).ending = Ending.fatal ∧
            (tail = [Op.load true, Op.build, Op.exportCall false, Op.fatal]
              ∨ tail = [Op.load true, Op.build, Op.exportCall true, Op.wait false, Op.fatal]))) := by
  obtain ⟨iters, tail, ht, hcase⟩ := loop_shape w env fuel 0 0
  rcases hcase with ⟨he, htail⟩ | ⟨j, he, htail⟩ | ⟨he, htail⟩
  · refine ⟨iters, tail, ?_, Or.inl ⟨?_, htail⟩⟩
    · simp only [simulateLogs, he, ht]
    · simp only [simulateLogs, he]
  · refine ⟨iters, tail ++ [Op.info j, Op.wgDone], ?_, Or.inr (Or.inl ⟨j, ?_, ?_⟩)⟩
    · simp only [simulateLogs, he, ht, List.append_assoc]
    · simp only [simulateLogs, he]
    · rcases htail with h | h <;> simp [h]
  · refine ⟨iters, tail, ?_, Or.inr (Or.inr ⟨?_, htail⟩)⟩
    · simp only [simulateLogs, he, ht]
    · simp only [simulateLogs, he]

theorem failFast_split (pre : List Op) : ∀ (t post : List Op) (x : Op),
    failFast t = true → t = pre ++ x :: post → isFailed x = true → post = [Op.fatal] := by
  induction pre with
  | nil =>
    intro t post x hf ht hx
    subst ht
    simp [failFast, hx] at hf
    exact hf.1
  | cons a pre ih =>
    intro t post x hf ht hx
    subst ht
    simp only [List.cons_append, failFast, Bool.and_eq_true] at hf
    exact ih _ post x hf.2 rfl hx

theorem failFast_blocks_append (iters : List (Int × Bool)) (tail : List Op) :
    failFast (blocks iters ++ tail) = failFast tail := by
  induction iters with
  | nil => simp [blocks]
  | cons p iters ih =>
    rw [blocks_cons, List.append_assoc]
    simp [iteration, failFast, isFailed, ih]

theorem inBlock_of_mem_blocks (iters : List (Int × Bool)) (op : Op)
    (h : op ∈ blocks iters) : inBlock op = true := by
  induction iters with
  | nil => simp [blocks] at h
  | cons p iters ih =>
    rw [blocks_cons, List.mem_append] at h
    rcases h with h | h
    · simp [iteration] at h
      rcases h with h | h | h | h | h <;> subst h <;> rfl
    · exact ih h

theorem not_inBlock_of_isFailed (x : Op) (h : isFailed x = true) : inBlock x = false := by
  cases x with
  | exportCall ok => cases ok <;> simp_all [isFailed, inBlock]
  | wait ok => cases ok <;> simp_all [isFailed, inBlock]
  | _ => simp [isFailed] at h

/-- A worker with a positive target, a flag that always reads true and calls
that never fail: its trace, its ending and its number of export calls. -/
theorem simulateLogs_count (w : worker) (env : WorkerEnv) (K fuel : Nat)
    (hpos : 0 < K) (hmax : (K : Int) < 9223372036854775808)
    (hK : w.numLogs = (K : Int))
    (hrun : ∀ n, env.running n = true) (hexp : ∀ n, env.exportOk n = true)
    (hwait : ∀ n, env.waitOk n = true) (hfuel : K ≤ fuel) :
    (simulateLogs w env fuel).trace =
        Op.newLimiter w.limitPerSecond 1 ::
          (((List.range' 1 (K - 1)).map (fun (m : Nat) => iteration (m : Int) false)).flatten
            ++ iteration (K : Int) true ++ [Op.info (K : Int), Op.wgDone])
      ∧ (simulateLogs w env fuel).ending = Ending.stopped (K : Int)
      ∧ exports (simulateLogs w env fuel).trace = K := by
  have hl := loop_count w env K hK hmax hrun hexp hwait (K - 1) 0 0 fuel (by omega) (by omega)
  have ht : (simulateLogs w env fuel).trace =
        Op.newLimiter w.limitPerSecond 1 ::
          (((List.range' 1 (K - 1)).map (fun (m : Nat) => iteration (m : Int) false)).flatten
            ++ iteration (K : Int) true ++ [Op.info (K : Int), Op.wgDone]) := by
    simp only [simulateLogs]
    rw [show ((0 : Nat) : Int) = 0 from rfl] at hl
    rw [hl]
  refine ⟨ht, ?_, ?_⟩
  · simp only [simulateLogs]
    rw [show ((0 : Nat) : Int) = 0 from rfl] at hl
    rw [hl]
  · rw [ht]
    rw [show Op.newLimiter w.limitPerSecond 1 ::
          (((List.range' 1 (K - 1)).map (fun (m : Nat) => iteration (m : Int) false)).flatten
            ++ iteration (K : Int) true ++ [Op.info (K : Int), Op.wgDone])
        = [Op.newLimiter w.limitPerSecond 1] ++
          (((List.range' 1 (K - 1)).map (fun (m : Nat) => iteration (m : Int) false)).flatten
            ++ (iteration (K : Int) true ++ [Op.info (K : Int), Op.wgDone])) by simp]
    rw [exports_append, exports_append, exports_iterations]
    simp [exports, iteration, isExport, List.countP_cons]
    omega

/-- A worker without a target and with calls that never fail, whose flag reads
true `n` times and then false: its trace, its ending, its export calls and its
reads of the flag. -/
theorem simulateLogs_flag (w : worker) (env : WorkerEnv) (n fuel : Nat)
    (h0 : w.numLogs = 0) (hexp : ∀ m, env.exportOk m = true)
    (hwait : ∀ m, env.waitOk m = true)
    (htrue : ∀ m, m < n → env.running m = true) (hfalse : env.running n = false)
    (hfuel : n < fuel) :
    (simulateLogs w env fuel).trace =
        Op.newLimiter w.limitPerSecond 1 ::
          (((List.range' 1 n).map (fun (m : Nat) => iteration (int64Wrap (m : Int)) false)).flatten
            ++ [Op.load false] ++ [Op.info (int64Wrap (n : Int)), Op.wgDone])
      ∧ (simulateLogs w env fuel).ending = Ending.stopped (int64Wrap (n : Int))
      ∧ exports (simulateLogs w env fuel).trace = n
      ∧ loads (simulateLogs w env fuel).trace = n + 1 := by
  have hl := loop_flag w env n h0 hexp hwait htrue hfalse n 0 fuel (by omega) (by omega)
  have hz : int64Wrap ((0 : Nat) : Int) = 0 := by decide
  rw [hz] at hl
  have ht : (simulateLogs w env fuel).trace =
        Op.newLimiter w.limitPerSecond 1 ::
          (((List.range' 1 n).map (fun (m : Nat) => iteration (int64Wrap (m : Int)) false)).flatten
            ++ [Op.load false] ++ [Op.info (int64Wrap (n : Int)), Op.wgDone]) := by
    simp only [simulateLogs]
    rw [hl]
  refine ⟨ht, ?_, ?_, ?_⟩
  · simp only [simulateLogs]
    rw [hl]
  · rw [ht]
    rw [show Op.newLimiter w.limitPerSecond 1 ::
          (((List.range' 1 n).map (fun (m : Nat) => iteration (int64Wrap (m : Int)) false)).flatten
            ++ [Op.load false] ++ [Op.info (int64Wrap (n : Int)), Op.wgDone])
        = [Op.newLimiter w.limitPerSecond 1] ++
          (((List.range' 1 n).map (fun (m : Nat) => iteration (int64Wrap (m : Int)) false)).flatten
            ++ [Op.load false, Op.info (int64Wrap (n : Int)), Op.wgDone]) by simp]
    rw [exports_append, exports_append,
      exports_iterations (List.range' 1 n) (fun m => int64Wrap (m : Int)) false]
    simp [exports, isExport, List.countP_cons]
  · rw [ht]
    rw [show Op.newLimiter w.limitPerSecond 1 ::
          (((List.range' 1 n).map (fun (m : Nat) => iteration (int64Wrap (m : Int)) false)).flatten
            ++ [Op.load false] ++ [Op.info (int64Wrap (n : Int)), Op.wgDone])
        = [Op.newLimiter w.limitPerSecond 1] ++
          (((List.range' 1 n).map (fun (m : Nat) => iteration (int64Wrap (m : Int)) false)).flatten
            ++ [Op.load false, Op.info (int64Wrap (n : Int)), Op.wgDone]) by simp]
    rw [loads_append, loads_append,
      loads_iterations (List.range' 1 n) (fun m => int64Wrap (m : Int)) false]
    simp [loads, isLoad, List.countP_cons]

/-- The worker started in turn `i` of the loop of `Run`. -/
theorem mem_spawn_go (c : Config) (limit : Limit) (w : worker) (n : Nat)
    (h : Op.go w ∈ ((List.range n).map (spawn c limit)).flatten) :
    ∃ i, i < n ∧ w = { numLogs := c.NumLogs, limitPerSecond := limit,
                       totalDuration := c.TotalDuration, index := (i : Int) } := by
  simp only [List.mem_flatten, List.mem_map, List.mem_range] at h
  obtain ⟨l, ⟨i, hi, rfl⟩, hl⟩ := h
  simp [spawn] at hl
  exact ⟨i, hi, hl⟩

theorem mem_runBody_go (c : Config) (w : worker) (h : Op.go w ∈ (runBody c).trace) :
    ∃ i, i < c.WorkerCount.toNat ∧
      w = { numLogs := c.NumLogs, limitPerSecond := resolveLimit c,
            totalDuration := c.TotalDuration, index := (i : Int) } := by
  simp only [runBody, List.mem_append, List.mem_cons, List.mem_singleton] at h
  rcases h with ((h | h) | h) | h
  · rcases h with h | h | h | h | h
    · split at h <;> simp at h
    · simp at h
    · simp at h
    · simp at h
    · simp at h
  · exact mem_spawn_go c _ w _ h
  · split at h <;> simp at h
  · simp at h

theorem runBody_trace (c : Config) :
    (runBody c).trace
      = [logged c, Op.newWaitGroup, Op.newFlag true, Op.newResource] ++ spawnAll c ++ timed c
          ++ [Op.wgWait] := rfl

theorem runBody_cfg (c : Config) : (runBody c).cfg = c := rfl

theorem runBody_err (c : Config) : (runBody c).err = none := rfl

theorem Run_of_duration (c : Config) (h : c.TotalDuration > 0) :
    Run c = runBody { c with NumLogs := 0 } := by
  simp [Run, h]

theorem Run_of_count (c : Config) (h1 : c.TotalDuration ≤ 0) (h2 : c.NumLogs > 0) :
    Run c = runBody c := by
  have h1' : ¬ c.TotalDuration > 0 := by omega
  have h2' : ¬ c.NumLogs ≤ 0 := by omega
  simp [Run, h1', h2']

theorem Run_of_invalid (c : Config) (h1 : c.TotalDuration ≤ 0) (h2 : c.NumLogs ≤ 0) :
    Run c = ⟨c, [], some "either `logs` or `duration` must be greater than 0"⟩ := by
  have h1' : ¬ c.TotalDuration > 0 := by omega
  simp [Run, h1', h2]

/-- A call of `Run` either returns the configuration error at once or runs the
body on the resolved configuration. -/
theorem Run_cases (c : Config) :
    (c.TotalDuration ≤ 0 ∧ c.NumLogs ≤ 0 ∧
        Run c = ⟨c, [], some "either `logs` or `duration` must be greater than 0"⟩)
    ∨ (¬ (c.TotalDuration ≤ 0 ∧ c.NumLogs ≤ 0) ∧ ∃ c1, Run c = runBody c1 ∧
        c1.Rate = c.Rate ∧ c1.WorkerCount = c.WorkerCount ∧
        c1.TotalDuration = c.TotalDuration ∧
        c1.NumLogs = if c.TotalDuration > 0 then 0 else c.NumLogs) := by
  by_cases h1 : c.TotalDuration > 0
  · right
    exact ⟨by omega, _, Run_of_duration c h1, rfl, rfl, rfl, by simp [h1]⟩
  · by_cases h2 : c.NumLogs ≤ 0
    · left
      exact ⟨by omega, h2, Run_of_invalid c (by omega) h2⟩
    · right
      exact ⟨by omega, _, Run_of_count c (by omega) (by omega), rfl, rfl, rfl, by simp [h1]⟩

theorem isSpawn_of_mem_spawnAll (c : Config) (op : Op) (h : op ∈ spawnAll c) :
    isSpawn op = true := by
  simp only [spawnAll, List.mem_flatten, List.mem_map, List.mem_range] at h
  obtain ⟨l, ⟨i, _, rfl⟩, hl⟩ := h
  simp [spawn] at hl
  rcases hl with h | h <;> subst h <;> rfl

theorem spawnedWorkers_append (a b : List Op) :
    spawnedWorkers (a ++ b) = spawnedWorkers a ++ spawnedWorkers b := by
  induction a with
  | nil => rfl
  | cons x a ih =>
    cases x <;> simp [spawnedWorkers, ih]

theorem spawnedWorkers_spawn (c : Config) (l : List Nat) :
    spawnedWorkers ((l.map (spawn c (resolveLimit c))).flatten) = l.map (workerOf c) := by
  induction l with
  | nil => rfl
  | cons i l ih =>
    rw [List.map_cons, List.flatten_cons, spawnedWorkers_append, ih]
    simp [spawn, spawnedWorkers, workerOf]

theorem spawnedWorkers_timed (c : Config) : spawnedWorkers (timed c) = [] := by
  unfold timed
  split <;> simp [spawnedWorkers]

theorem spawnedWorkers_runBody (c : Config) :
    spawnedWorkers (runBody c).trace = (List.range c.WorkerCount.toNat).map (workerOf c) := by
  rw [runBody_trace, spawnedWorkers_append, spawnedWorkers_append, spawnedWorkers_append,
    spawnedWorkers_timed]
  have h1 : spawnedWorkers [logged c, Op.newWaitGroup, Op.newFlag true, Op.newResource] = [] := by
    unfold logged
    split <;> simp [spawnedWorkers]
  rw [h1]
  simp [spawnAll, spawnedWorkers_spawn, spawnedWorkers]

theorem foldl_flagStep_of_isSpawn (l : List Op) (h : ∀ op, op ∈ l → isSpawn op = true)
    (v : Bool) : l.foldl flagStep v = v := by
  induction l generalizing v with
  | nil => rfl
  | cons x l ih =>
    have hx : flagStep v x = v := by
      have := h x (by simp)
      cases x <;> simp_all [isSpawn, flagStep]
    rw [List.foldl_cons, hx]
    exact ih (fun op hop => h op (by simp [hop])) v

theorem not_isStore_of_isSpawn (op : Op) (h : isSpawn op = true) : isStore op = false := by
  cases op <;> simp_all [isSpawn, isStore]

theorem not_isStore_logged (c : Config) : isStore (logged c) = false := by
  unfold logged
  split <;> rfl

/-- The stop flag as the orchestrator leaves it: cleared exactly in a
duration-based run. -/
theorem flagAfter_runBody (c : Config) :
    flagAfter (runBody c).trace = decide (c.TotalDuration ≤ 0) := by
  rw [runBody_trace]
  simp only [flagAfter, List.foldl_append, List.foldl_cons, List.foldl_nil]
  rw [foldl_flagStep_of_isSpawn (spawnAll c) (isSpawn_of_mem_spawnAll c)]
  unfold timed
  by_cases h : c.TotalDuration > 0
  · have h' : ¬ c.TotalDuration ≤ 0 := by omega
    simp [h, h', flagStep]
  · have h' : c.TotalDuration ≤ 0 := by omega
    simp [h, h', flagStep]

/-- The stop flag before the orchestrator's first `Store`: true. -/
theorem flagAfter_runBody_before_store (c : Config) :
    flagAfter ((runBody c).trace.takeWhile (fun op => !isStore op)) = true := by
  rw [runBody_trace, List.append_assoc, List.append_assoc]
  rw [List.takeWhile_append_of_pos (by
    intro a ha
    simp only [List.mem_cons, List.mem_singleton, List.not_mem_nil, or_false] at ha
    rcases ha with h | h | h | h <;> subst h
    · simp [not_isStore_logged]
    · rfl
    · rfl
    · rfl)]
  rw [List.takeWhile_append_of_pos (by
    intro a ha
    simp [not_isStore_of_isSpawn a (isSpawn_of_mem_spawnAll c a ha)])]
  simp only [flagAfter, List.foldl_append, List.foldl_cons, List.foldl_nil]
  rw [foldl_flagStep_of_isSpawn (spawnAll c) (isSpawn_of_mem_spawnAll c)]
  unfold timed
  by_cases h : c.TotalDuration > 0
  · simp [h, flagStep, isStore, List.takeWhile]
  · simp [h, flagStep, isStore, List.takeWhile]

/-- What the workers of a run read from the flag: true as long as the
orchestrator has not stored, and in a count-based run always. -/
theorem workerEnv_running_runBody (c : Config) (world : World) (j n : Nat) :
    (workerEnv (runBody c).trace world j).running n
      = (decide (c.TotalDuration ≤ 0) || decide (n < world.loadsBeforeStore j)) := by
  simp only [workerEnv, flagAfter_runBody, flagAfter_runBody_before_store]
  by_cases h : n < world.loadsBeforeStore j <;> simp [h]

theorem mem_runBody_trace (c : Config) (op : Op) (h : op ∈ (runBody c).trace) :
    op = logged c ∨ op = Op.newWaitGroup ∨ op = Op.newFlag true ∨ op = Op.newResource
      ∨ isSpawn op = true
      ∨ (c.TotalDuration > 0 ∧ (op = Op.sleep c.TotalDuration ∨ op = Op.store false))
      ∨ op = Op.wgWait := by
  rw [runBody_trace] at h
  simp only [List.mem_append, List.mem_cons, List.mem_singleton, List.not_mem_nil,
    or_false] at h
  rcases h with ((hpre | hsp) | htm) | hw
  · rcases hpre with h1 | h2 | h3 | h4
    · left; exact h1
    · right; left; exact h2
    · right; right; left; exact h3
    · right; right; right; left; exact h4
  · right; right; right; right; left
    exact isSpawn_of_mem_spawnAll c op hsp
  · unfold timed at htm
    by_cases hd : c.TotalDuration > 0
    · simp [hd] at htm
      right; right; right; right; right; left
      exact ⟨hd, htm⟩
    · simp [hd] at htm
  · right; right; right; right; right; right
    exact hw

theorem not_isNewLimiter_of_inBlock (op : Op) (h : inBlock op = true) :
    isNewLimiter op = false := by
  cases op <;> simp_all [inBlock, isNewLimiter]

theorem runSystem_orchestrator (c : Config) (world : World) (fuel : Nat) :
    (runSystem c world fuel).orchestrator = Run c := by
  unfold runSystem
  dsimp only
  split
  · rfl
  · split
    · rfl
    · split <;> rfl

theorem runSystem_workers (c : Config) (world : World) (fuel : Nat) :
    (runSystem c world fuel).workers = runWorkers (Run c).trace world fuel := by
  unfold runSystem
  dsimp only
  split
  · rfl
  · split
    · rfl
    · split <;> rfl

theorem runSystem_outcome_of_err (c : Config) (world : World) (fuel : Nat) (msg : String)
    (h : (Run c).err = some msg) :
    (runSystem c world fuel).outcome = Outcome.configError msg := by
  unfold runSystem
  dsimp only
  split
  · rename_i m hm
    rw [h] at hm
    cases hm
    rfl
  · rename_i hm
    rw [h] at hm
    cases hm

theorem not_isFatal_of_isStopped (e : Exec) (h : e.isStopped = true) : e.isFatal = false := by
  unfold Exec.isStopped at h
  unfold Exec.isFatal
  split at h <;> simp_all

theorem runSystem_returnedNil_iff (c : Config) (world : World) (fuel : Nat)
    (h : (Run c).err = none) :
    (runSystem c world fuel).outcome = Outcome.returnedNil ↔
      ∀ e, e ∈ (runSystem c world fuel).workers → e.isStopped = true := by
  rw [runSystem_workers]
  unfold runSystem
  dsimp only
  split
  · rename_i m hm
    rw [h] at hm
    cases hm
  · by_cases hf : (runWorkers (Run c).trace world fuel).any Exec.isFatal = true
    · rw [if_pos hf]
      constructor
      · intro h1
        cases h1
      · intro hall
        rw [List.any_eq_true] at hf
        obtain ⟨e, he, hfe⟩ := hf
        rw [not_isFatal_of_isStopped e (hall e he)] at hfe
        cases hfe
    · rw [if_neg hf]
      by_cases ha : (runWorkers (Run c).trace world fuel).all Exec.isStopped = true
      · rw [if_pos ha]
        simp only [true_iff]
        exact List.all_eq_true.mp ha
      · rw [if_neg ha]
        constructor
        · intro h1
          cases h1
        · intro hall
          exact absurd (List.all_eq_true.mpr hall) ha

theorem not_isNewLimiter_of_isSpawn (op : Op) (h : isSpawn op = true) :
    isNewLimiter op = false := by
  cases op <;> simp_all [isSpawn, isNewLimiter]

theorem not_flagWrite_of_inBlock (op : Op) (h : inBlock op = true) :
    isStore op = false ∧ ∀ b, op ≠ Op.newFlag b := by
  cases op <;> simp_all [inBlock, isStore]

theorem not_sleep_of_isSpawn (op : Op) (h : isSpawn op = true) : ∀ d, op ≠ Op.sleep d := by
  cases op <;> simp_all [isSpawn]

theorem barrier_append (a b : List Op) : barrier (a ++ b) = barrier a + barrier b := by
  simp [barrier, List.sum_append]

theorem barrier_eq_zero (l : List Op) (h : ∀ op, op ∈ l → wgDelta op = 0) : barrier l = 0 := by
  induction l with
  | nil => rfl
  | cons x l ih =>
    have hx := h x (by simp)
    have hl := ih (fun op hop => h op (by simp [hop]))
    simp only [barrier, List.map_cons, List.sum_cons] at hl ⊢
    rw [hx, hl]
    rfl

theorem wgDelta_of_inBlock (op : Op) (h : inBlock op = true) : wgDelta op = 0 := by
  cases op <;> simp_all [inBlock, wgDelta]

theorem barrier_spawn (c : Config) (limit : Limit) (l : List Nat) :
    barrier ((l.map (spawn c limit)).flatten) = (l.length : Int) := by
  induction l with
  | nil => rfl
  | cons i l ih =>
    rw [List.map_cons, List.flatten_cons, barrier_append, ih]
    simp [barrier, spawn, wgDelta]
    omega

/-- The counter of the wait group once the orchestrator has started all the
workers: one increment for each. -/
theorem barrier_runBody (c : Config) : barrier (runBody c).trace = (c.WorkerCount.toNat : Int) := by
  rw [runBody_trace, barrier_append, barrier_append, barrier_append]
  have h1 : barrier [logged c, Op.newWaitGroup, Op.newFlag true, Op.newResource] = 0 := by
    unfold logged
    split <;> rfl
  have h2 : barrier (timed c) = 0 := by
    unfold timed
    split <;> rfl
  have h3 : barrier (spawnAll c) = (c.WorkerCount.toNat : Int) := by
    unfold spawnAll
    rw [barrier_spawn]
    simp
  have h4 : barrier [Op.wgWait] = 0 := rfl
  rw [h1, h2, h3, h4]
  simp

/-- A worker that returned has called `wg.Done()` once, as its last action; a
worker that did not return has not called it. -/
theorem simulateLogs_done (w : worker) (env : WorkerEnv) (fuel : Nat) :
    ((simulateLogs w env fuel).isStopped = true →
        ∃ body, (simulateLogs w env fuel).trace = body ++ [Op.wgDone]
          ∧ ∀ op, op ∈ body → wgDelta op = 0)
    ∧ ((simulateLogs w env fuel).isStopped = false →
        ∀ op, op ∈ (simulateLogs w env fuel).trace → wgDelta op = 0) := by
  obtain ⟨iters, tail, hs, hcase⟩ := simulateLogs_shape w env fuel
  have hb : ∀ op, op ∈ blocks iters → wgDelta op = 0 := fun op hop =>
    wgDelta_of_inBlock op (inBlock_of_mem_blocks iters op hop)
  rcases hcase with ⟨he, ht⟩ | ⟨j, he, ht | ht⟩ | ⟨he, ht | ht⟩
  · refine ⟨fun h => ?_, fun _ op hop => ?_⟩
    · simp [Exec.isStopped, he] at h
    · rw [hs, ht] at hop
      simp only [List.append_nil, List.mem_cons] at hop
      rcases hop with h | h
      · subst h; rfl
      · exact hb op h
  · refine ⟨fun _ => ⟨Op.newLimiter w.limitPerSecond 1 :: (blocks iters ++ [Op.info j]), ?_, ?_⟩,
      fun h => ?_⟩
    · rw [hs, ht]
      simp
    · intro op hop
      simp only [List.mem_cons, List.mem_append, List.mem_singleton, List.not_mem_nil,
        or_false] at hop
      rcases hop with h | h | h
      · subst h; rfl
      · exact hb op h
      · subst h; rfl
    · simp [Exec.isStopped, he] at h
  · refine ⟨fun _ => ⟨Op.newLimiter w.limitPerSecond 1 ::
        (blocks iters ++ [Op.load false, Op.info j]), ?_, ?_⟩, fun h => ?_⟩
    · rw [hs, ht]
      simp
    · intro op hop
      simp only [List.mem_cons, List.mem_append, List.mem_singleton, List.not_mem_nil,
        or_false] at hop
      rcases hop with h | h | h | h
      · subst h; rfl
      · exact hb op h
      · subst h; rfl
      · subst h; rfl
    · simp [Exec.isStopped, he] at h
  · refine ⟨fun h => ?_, fun _ op hop => ?_⟩
    · simp [Exec.isStopped, he] at h
    · rw [hs, ht] at hop
      simp only [List.mem_cons, List.mem_append, List.mem_singleton, List.not_mem_nil,
        or_false] at hop
      rcases hop with h | h | h | h | h | h
      · subst h; rfl
      · exact hb op h
      · subst h; rfl
      · subst h; rfl
      · subst h; rfl
      · subst h; rfl
  · refine ⟨fun h => ?_, fun _ op hop => ?_⟩
    · simp [Exec.isStopped, he] at h
    · rw [hs, ht] at hop
      simp only [List.mem_cons, List.mem_append, List.mem_singleton, List.not_mem_nil,
        or_false] at hop
      rcases hop with h | h | h | h | h | h | h
      · subst h; rfl
      · exact hb op h
      · subst h; rfl
      · subst h; rfl
      · subst h; rfl
      · subst h; rfl
      · subst h; rfl

theorem barrier_take (e : Exec) (h : DoneOnce e) (m : Nat) :
    barrier (e.trace.take m) = if e.isStopped = true ∧ e.trace.length ≤ m then -1 else 0 := by
  by_cases hs : e.isStopped = true
  · obtain ⟨body, ht, hbody⟩ := h.1 hs
    by_cases hm : e.trace.length ≤ m
    · rw [if_pos ⟨hs, hm⟩, List.take_of_length_le hm, ht, barrier_append, barrier_eq_zero body hbody]
      rfl
    · rw [if_neg (fun hc => hm hc.2)]
      have hlen : m ≤ body.length := by
        rw [ht] at hm
        simp at hm
        omega
      rw [ht, List.take_append_of_le_length hlen]
      exact barrier_eq_zero _ (fun op hop => hbody op (List.mem_of_mem_take hop))
  · rw [if_neg (fun hc => hs hc.1)]
    have hs' : e.isStopped = false := by
      cases h1 : e.isStopped
      · rfl
      · exact absurd h1 hs
    exact barrier_eq_zero _ (fun op hop => h.2 hs' op (List.mem_of_mem_take hop))

/-- The decrements made so far by a family of workers: at most one for each,
and one for each exactly when all of them have returned. -/
theorem barrier_progressOf (progress : Nat → Nat) :
    ∀ (es : List Exec) (j : Nat), (∀ e, e ∈ es → DoneOnce e) →
      -(es.length : Int) ≤ barrier (progressOf progress j es)
      ∧ (barrier (progressOf progress j es) = -(es.length : Int) ↔
          ∀ k e, es[k]? = some e → e.isStopped = true ∧ e.trace.length ≤ progress (j + k)) := by
  intro es
  induction es with
  | nil =>
    intro j _
    simp [progressOf, barrier]
  | cons e es ih =>
    intro j h
    obtain ⟨hge, hiff⟩ := ih (j + 1) (fun x hx => h x (by simp [hx]))
    have he := barrier_take e (h e (by simp)) (progress j)
    simp only [progressOf, barrier_append, List.length_cons]
    by_cases hfin : e.isStopped = true ∧ e.trace.length ≤ progress j
    · rw [if_pos hfin] at he
      rw [he]
      refine ⟨by push_cast; omega, ?_⟩
      constructor
      · intro hsum
        have hrest : barrier (progressOf progress (j + 1) es) = -(es.length : Int) := by
          push_cast at hsum
          omega
        intro k x hk
        cases k with
        | zero =>
          simp at hk
          subst hk
          exact hfin
        | succ k =>
          simp at hk
          have := hiff.mp hrest k x hk
          rw [show j + (k + 1) = j + 1 + k by omega]
          exact this
      · intro hall
        have hrest : barrier (progressOf progress (j + 1) es) = -(es.length : Int) := by
          apply hiff.mpr
          intro k x hk
          have := hall (k + 1) x (by simpa using hk)
          rw [show j + (k + 1) = j + 1 + k by omega] at this
          exact this
        push_cast
        omega
    · rw [if_neg hfin] at he
      rw [he]
      refine ⟨by push_cast; omega, ?_⟩
      constructor
      · intro hsum
        push_cast at hsum
        omega
      · intro hall
        exact absurd (hall 0 e (by simp)) hfin

theorem length_runWorkersFrom (t : List Op) (world : World) (fuel : Nat) :
    ∀ (ws : List worker) (j : Nat), (runWorkersFrom t world fuel j ws).length = ws.length := by
  intro ws
  induction ws with
  | nil => intro j; rfl
  | cons w ws ih =>
    intro j
    simp [runWorkersFrom, ih]

theorem mem_runWorkersFrom (t : List Op) (world : World) (fuel : Nat) (e : Exec) :
    ∀ (ws : List worker) (j : Nat), e ∈ runWorkersFrom t world fuel j ws →
      ∃ w k, w ∈ ws ∧ j ≤ k ∧ k < j + ws.length
        ∧ e = simulateLogs w (workerEnv t world k) fuel := by
  intro ws
  induction ws with
  | nil =>
    intro j h
    simp [runWorkersFrom] at h
  | cons w ws ih =>
    intro j h
    simp only [runWorkersFrom, List.mem_cons] at h
    rcases h with h | h
    · exact ⟨w, j, by simp, le_refl j, by simp, h⟩
    · obtain ⟨w1, k, hw1, hk1, hk2, hk⟩ := ih (j + 1) h
      exact ⟨w1, k, by simp [hw1], by omega, by simp only [List.length_cons]; omega, hk⟩

theorem doneOnce_of_mem_runWorkers (t : List Op) (world : World) (fuel : Nat) (e : Exec)
    (h : e ∈ runWorkers t world fuel) : DoneOnce e := by
  obtain ⟨w, k, _, _, _, rfl⟩ := mem_runWorkersFrom t world fuel e _ 0 h
  exact simulateLogs_done w _ fuel

theorem resolveLimit_congr (c c1 : Config) (h : c1.Rate = c.Rate) :
    resolveLimit c1 = resolveLimit c := by
  simp [resolveLimit, h]

theorem sum_map_const (l : List Exec) (f : Exec → Nat) (K : Nat)
    (h : ∀ e, e ∈ l → f e = K) : (l.map f).sum = l.length * K := by
  induction l with
  | nil => simp
  | cons e l ih =>
    rw [List.map_cons, List.sum_cons, h e (by simp), ih (fun x hx => h x (by simp [hx])),
      List.length_cons]
    ring

/-- The workers of a count-based run whose sink and limiters never fail: each
makes exactly `NumLogs` export calls and returns. -/
theorem count_run_workers (c : Config) (world : World) (K fuel : Nat)
    (hpos : 0 < K) (hmax : (K : Int) < 9223372036854775808)
    (hN : c.NumLogs = (K : Int)) (hD : c.TotalDuration ≤ 0)
    (hworld : world.neverFails) (hfuel : K ≤ fuel) (e : Exec)
    (he : e ∈ runWorkers (runBody c).trace world fuel) :
    exports e.trace = K ∧ e.ending = Ending.stopped (K : Int) := by
  obtain ⟨w, k, hw, _, _, rfl⟩ := mem_runWorkersFrom _ world fuel e _ 0 he
  rw [spawnedWorkers_runBody, List.mem_map] at hw
  obtain ⟨i, _, rfl⟩ := hw
  have h := simulateLogs_count (workerOf c i) (workerEnv (runBody c).trace world k) K fuel
    hpos hmax hN
    (fun n => by rw [workerEnv_running_runBody]; simp [hD])
    (fun n => (hworld k n).1) (fun n => (hworld k n).2) hfuel
  exact ⟨h.2.2, h.2.1⟩

/-- The workers of a duration-based run whose sink and limiters never fail:
each returns at its first read of the flag that comes after the orchestrator's
`Store`. -/
theorem duration_run_workers (c : Config) (world : World) (fuel : Nat)
    (hD : c.TotalDuration > 0) (hN : c.NumLogs = 0) (hworld : world.neverFails)
    (hfuel : ∀ k, k < c.WorkerCount.toNat → world.loadsBeforeStore k < fuel) (e : Exec)
    (he : e ∈ runWorkers (runBody c).trace world fuel) :
    ∃ k, k < c.WorkerCount.toNat
      ∧ e.ending = Ending.stopped (int64Wrap (world.loadsBeforeStore k : Int))
      ∧ exports e.trace = world.loadsBeforeStore k := by
  obtain ⟨w, k, hw, _, hk, rfl⟩ := mem_runWorkersFrom _ world fuel e _ 0 he
  rw [spawnedWorkers_runBody] at hw hk
  simp only [List.length_map, List.length_range, Nat.zero_add] at hk
  rw [List.mem_map] at hw
  obtain ⟨i, _, rfl⟩ := hw
  have hD1 : ¬ c.TotalDuration ≤ 0 := by omega
  have h := simulateLogs_flag (workerOf c i) (workerEnv (runBody c).trace world k)
    (world.loadsBeforeStore k) fuel hN
    (fun n => (hworld k n).1) (fun n => (hworld k n).2)
    (fun m hm => by rw [workerEnv_running_runBody]; simp [hD1, hm])
    (by rw [workerEnv_running_runBody]; simp [hD1])
    (hfuel k hk)
  exact ⟨k, hk, h.2.1, h.2.2.1⟩

/-- A valid run whose sink and limiters never fail comes to its end: with
enough fuel every worker returns and `Run` returns `nil`. -/
theorem run_returns (c : Config) (world : World)
    (hvalid : ¬ (c.TotalDuration ≤ 0 ∧ c.NumLogs ≤ 0))
    (hmax : c.NumLogs < 9223372036854775808) (hworld : world.neverFails) :
    ∃ fuel0, ∀ fuel, fuel0 ≤ fuel → (runSystem c world fuel).outcome = Outcome.returnedNil := by
  by_cases hD : c.TotalDuration > 0
  · have hr := Run_of_duration c hD
    refine ⟨(Finset.range c.WorkerCount.toNat).sup world.loadsBeforeStore + 1, ?_⟩
    intro fuel hfuel
    rw [runSystem_returnedNil_iff c world fuel (by rw [hr, runBody_err]), runSystem_workers, hr]
    intro e he
    obtain ⟨k, _, hend, _⟩ := duration_run_workers { c with NumLogs := 0 } world fuel hD rfl
      hworld (fun k hk => by
        have : world.loadsBeforeStore k
            ≤ (Finset.range c.WorkerCount.toNat).sup world.loadsBeforeStore :=
          Finset.le_sup (Finset.mem_range.mpr hk)
        omega) e he
    simp [Exec.isStopped, hend]
  · have hN : c.NumLogs > 0 := by omega
    have hr := Run_of_count c (by omega) hN
    refine ⟨c.NumLogs.toNat, ?_⟩
    intro fuel hfuel
    rw [runSystem_returnedNil_iff c world fuel (by rw [hr, runBody_err]), runSystem_workers, hr]
    intro e he
    have h := count_run_workers c world c.NumLogs.toNat fuel (by omega) (by omega) (by omega)
      (by omega) hworld hfuel e he
    simp [Exec.isStopped, h.2]

/-! ## The claims -/

/-- C1. `Run` returns the configuration error exactly when both `TotalDuration`
and `NumLogs` are non-positive; it then has performed no action at all (no
`wg.Add`, no worker started, hence no export call).  For every other
configuration the last action of `Run` is `wg.Wait()` and the run ends with
`Run` returning `nil` exactly when every started worker has returned; with a
sink and limiters that never fail this does happen. -/
theorem run_validation (c : Config) (world : World) (fuel : Nat) :
    ((Run c).err ≠ none ↔ (c.TotalDuration ≤ 0 ∧ c.NumLogs ≤ 0))
    ∧ ((c.TotalDuration ≤ 0 ∧ c.NumLogs ≤ 0) →
        (Run c).err = some "either `logs` or `duration` must be greater than 0"
        ∧ (Run c).trace = []
        ∧ (runSystem c world fuel).workers = []
        ∧ (runSystem c world fuel).totalExports = 0
        ∧ (runSystem c world fuel).outcome
            = Outcome.configError "either `logs` or `duration` must be greater than 0")
    ∧ (¬ (c.TotalDuration ≤ 0 ∧ c.NumLogs ≤ 0) →
        (Run c).err = none
        ∧ (Run c).trace.getLast? = some Op.wgWait
        ∧ ((runSystem c world fuel).outcome = Outcome.returnedNil ↔
            ∀ e, e ∈ (runSystem c world fuel).workers → e.isStopped = true)
        ∧ (c.NumLogs < 9223372036854775808 → world.neverFails →
            ∃ fuel0, ∀ f, fuel0 ≤ f → (runSystem c world f).outcome = Outcome.returnedNil)) := by
  rcases Run_cases c with ⟨h1, h2, hr⟩ | ⟨hn, c1, hr, -⟩
  · refine ⟨⟨fun _ => ⟨h1, h2⟩, fun _ => by rw [hr]; simp⟩, ?_, fun hn => absurd ⟨h1, h2⟩ hn⟩
    intro _
    have he : (Run c).err = some "either `logs` or `duration` must be greater than 0" := by
      rw [hr]
    have ht : (Run c).trace = [] := by rw [hr]
    have hw : (runSystem c world fuel).workers = [] := by
      rw [runSystem_workers, ht]
      rfl
    refine ⟨he, ht, hw, ?_, runSystem_outcome_of_err c world fuel _ he⟩
    simp [SystemRun.totalExports, hw]
  · have he : (Run c).err = none := by rw [hr, runBody_err]
    refine ⟨⟨fun h => absurd he h, fun h => absurd h hn⟩, fun h => absurd h hn, fun _ => ?_⟩
    refine ⟨he, ?_, runSystem_returnedNil_iff c world fuel he,
      fun hmax hworld => run_returns c world hn hmax hworld⟩
    rw [hr, runBody_trace, List.getLast?_append]
    rfl

/-- Witness of C1: a configuration with neither a duration nor a count, and a
duration-based run whose two workers return. -/
theorem run_validation_witness :
    ((Run ⟨2, 0, 0, 0⟩).trace = []
      ∧ (runSystem ⟨2, 0, 0, 0⟩ ⟨fun _ _ => true, fun _ _ => true, fun _ => 1⟩ 3).totalExports = 0)
    ∧ (runSystem ⟨2, 0, 10, 0⟩ ⟨fun _ _ => true, fun _ _ => true, fun _ => 1⟩ 3).outcome
        = Outcome.returnedNil :=
  ⟨⟨((run_validation ⟨2, 0, 0, 0⟩ ⟨fun _ _ => true, fun _ _ => true, fun _ => 1⟩ 3).2.1
        (by decide)).2.1,
     ((run_validation ⟨2, 0, 0, 0⟩ ⟨fun _ _ => true, fun _ _ => true, fun _ => 1⟩ 3).2.1
        (by decide)).2.2.2.1⟩,
   (((run_validation ⟨2, 0, 10, 0⟩ ⟨fun _ _ => true, fun _ _ => true, fun _ => 1⟩ 3).2.2
        (by decide)).2.2.1).2 (by decide)⟩

/-- C2. Configuration resolution in `Run`: with `TotalDuration > 0` the count
field is set to 0, whatever it was, and every started worker gets
`numLogs = 0`; with `TotalDuration <= 0` and `NumLogs > 0` the configuration is
left as it is and the count is handed to every started worker.  Running `Run`
on the configuration a call has left behind gives the same result again. -/
theorem config_resolution (c : Config) :
    (c.TotalDuration > 0 →
        (Run c).cfg = { c with NumLogs := 0 }
        ∧ ∀ w, Op.go w ∈ (Run c).trace → w.numLogs = 0)
    ∧ (c.TotalDuration ≤ 0 → c.NumLogs > 0 →
        (Run c).cfg = c
        ∧ ∀ w, Op.go w ∈ (Run c).trace → w.numLogs = c.NumLogs)
    ∧ Run (Run c).cfg = Run c := by
  refine ⟨?_, ?_, ?_⟩
  · intro h
    rw [Run_of_duration c h]
    refine ⟨rfl, fun w hw => ?_⟩
    obtain ⟨i, _, rfl⟩ := mem_runBody_go _ w hw
    rfl
  · intro h1 h2
    rw [Run_of_count c h1 h2]
    refine ⟨rfl, fun w hw => ?_⟩
    obtain ⟨i, _, rfl⟩ := mem_runBody_go _ w hw
    rfl
  · by_cases h1 : c.TotalDuration > 0
    · rw [Run_of_duration c h1, runBody_cfg]
      rw [Run_of_duration _ (by exact h1)]
    · by_cases h2 : c.NumLogs ≤ 0
      · rw [Run_of_invalid c (by omega) h2]
        exact Run_of_invalid c (by omega) h2
      · rw [Run_of_count c (by omega) (by omega), runBody_cfg]
        exact Run_of_count c (by omega) (by omega)

/-- Witness of C2: duration and count both set, two workers. -/
theorem config_resolution_witness :
    (Run ⟨2, 0, 10, 7⟩).cfg = { (⟨2, 0, 10, 7⟩ : Config) with NumLogs := 0 }
      ∧ ∀ w, Op.go w ∈ (Run ⟨2, 0, 10, 7⟩).trace → w.numLogs = 0 :=
  (config_resolution ⟨2, 0, 10, 7⟩).1 (by decide)

/-- C3, as stated, fails: with `NumLogs = 2` and two workers (2 divides 2) and
a sink that never fails, the workers make 4 export calls together, not 2. -/
theorem total_exports_counterexample :
    (2 : Int) % 2 = 0
      ∧ (runSystem ⟨2, 0, 0, 2⟩ ⟨fun _ _ => true, fun _ _ => true, fun _ => 0⟩ 2).totalExports = 4
      ∧ (runSystem ⟨2, 0, 0, 2⟩ ⟨fun _ _ => true, fun _ _ => true, fun _ => 0⟩ 2).totalExports ≠ 2
      ∧ (runSystem ⟨2, 0, 0, 2⟩ ⟨fun _ _ => true, fun _ _ => true, fun _ => 0⟩ 2).outcome
          = Outcome.returnedNil := by
  decide

/-- C3, amended. For every configuration with `NumLogs = K > 0`,
`TotalDuration = 0` and `WorkerCount = W`, and a sink and limiters that never
fail, every one of the `W` workers makes exactly `K` export calls and returns
after `K` iterations, so the workers make `W * K` export calls together and
`Run` returns `nil`; the total is `K` exactly when `W = 1`. -/
theorem total_exports_count_run (c : Config) (world : World) (K fuel : Nat)
    (hpos : 0 < K) (hmax : (K : Int) < 9223372036854775808)
    (hN : c.NumLogs = (K : Int)) (hD : c.TotalDuration = 0)
    (hworld : world.neverFails) (hfuel : K ≤ fuel) :
    (runSystem c world fuel).totalExports = c.WorkerCount.toNat * K
    ∧ (runSystem c world fuel).workers.length = c.WorkerCount.toNat
    ∧ (∀ e, e ∈ (runSystem c world fuel).workers →
        exports e.trace = K ∧ e.ending = Ending.stopped (K : Int))
    ∧ (runSystem c world fuel).outcome = Outcome.returnedNil
    ∧ ((runSystem c world fuel).totalExports = K ↔ c.WorkerCount = 1) := by
  have hr : Run c = runBody c := Run_of_count c (by omega) (by omega)
  have hws : (runSystem c world fuel).workers = runWorkers (runBody c).trace world fuel := by
    rw [runSystem_workers, hr]
  have hall : ∀ e, e ∈ (runSystem c world fuel).workers →
      exports e.trace = K ∧ e.ending = Ending.stopped (K : Int) := by
    intro e he
    rw [hws] at he
    exact count_run_workers c world K fuel hpos hmax hN (by omega) hworld hfuel e he
  have hlen : (runSystem c world fuel).workers.length = c.WorkerCount.toNat := by
    rw [hws, runWorkers, length_runWorkersFrom, spawnedWorkers_runBody]
    simp
  have htot : (runSystem c world fuel).totalExports = c.WorkerCount.toNat * K := by
    rw [SystemRun.totalExports, sum_map_const _ _ K (fun e he => (hall e he).1), hlen]
  refine ⟨htot, hlen, hall, ?_, ?_⟩
  · rw [runSystem_returnedNil_iff c world fuel (by rw [hr, runBody_err])]
    intro e he
    simp [Exec.isStopped, (hall e he).2]
  · rw [htot]
    constructor
    · intro h
      have h1 : c.WorkerCount.toNat = 1 := by
        rcases Nat.eq_zero_or_pos (c.WorkerCount.toNat - 1) with h0 | h0
        · rcases Nat.eq_zero_or_pos c.WorkerCount.toNat with hz | hz
          · rw [hz] at h
            omega
          · omega
        · exfalso
          have : 2 * K ≤ c.WorkerCount.toNat * K := Nat.mul_le_mul_right K (by omega)
          omega
      omega
    · intro h
      rw [h]
      simp

/-- Witness of C3 amended: `NumLogs = 5`, one worker, no rate limit. -/
theorem total_exports_count_run_witness :
    (runSystem ⟨1, 0, 0, 5⟩ ⟨fun _ _ => true, fun _ _ => true, fun _ => 0⟩ 5).totalExports = 1 * 5
      ∧ (runSystem ⟨1, 0, 0, 5⟩ ⟨fun _ _ => true, fun _ _ => true, fun _ => 0⟩ 5).outcome
          = Outcome.returnedNil :=
  have h := total_exports_count_run ⟨1, 0, 0, 5⟩ ⟨fun _ _ => true, fun _ _ => true, fun _ => 0⟩
    5 5 (by decide) (by decide) rfl rfl (fun _ _ => ⟨rfl, rfl⟩) (le_refl 5)
  ⟨h.1, h.2.2.2.1⟩

/-- C4. Count-based termination of one worker: with `numLogs = K > 0` (an `int`
value), a flag that reads true at every check and a sink and limiter that never
fail, the worker runs exactly `K` iterations, each ending with the count check
made after the export; the check of the `K`-th iteration breaks the loop, so
the worker makes exactly `K` export calls, logs the final count `K` and stops. -/
theorem count_termination (w : worker) (env : WorkerEnv) (K fuel : Nat)
    (hpos : 0 < K) (hmax : (K : Int) < 9223372036854775808)
    (hK : w.numLogs = (K : Int))
    (hrun : ∀ n, env.running n = true) (hexp : ∀ n, env.exportOk n = true)
    (hwait : ∀ n, env.waitOk n = true) (hfuel : K ≤ fuel) :
    (simulateLogs w env fuel).trace =
        Op.newLimiter w.limitPerSecond 1 ::
          (((List.range' 1 (K - 1)).map (fun (m : Nat) => iteration (m : Int) false)).flatten
            ++ iteration (K : Int) true ++ [Op.info (K : Int), Op.wgDone])
      ∧ (simulateLogs w env fuel).ending = Ending.stopped (K : Int)
      ∧ exports (simulateLogs w env fuel).trace = K :=
  simulateLogs_count w env K fuel hpos hmax hK hrun hexp hwait hfuel

/-- Witness of C4: a worker with `numLogs = 3`. -/
theorem count_termination_witness :
    (simulateLogs ⟨3, 0, Limit.Inf, 0⟩ ⟨fun _ => true, fun _ => true, fun _ => true⟩ 3).trace =
        Op.newLimiter Limit.Inf 1 ::
          (((List.range' 1 (3 - 1)).map (fun (m : Nat) => iteration (m : Int) false)).flatten
            ++ iteration ((3 : Nat) : Int) true ++ [Op.info ((3 : Nat) : Int), Op.wgDone])
      ∧ (simulateLogs ⟨3, 0, Limit.Inf, 0⟩ ⟨fun _ => true, fun _ => true, fun _ => true⟩ 3).ending
          = Ending.stopped ((3 : Nat) : Int)
      ∧ exports (simulateLogs ⟨3, 0, Limit.Inf, 0⟩
          ⟨fun _ => true, fun _ => true, fun _ => true⟩ 3).trace = 3 :=
  count_termination ⟨3, 0, Limit.Inf, 0⟩ ⟨fun _ => true, fun _ => true, fun _ => true⟩ 3 3
    (by decide) (by decide) rfl (fun _ => rfl) (fun _ => rfl) (fun _ => rfl) (le_refl 3)

/-- C5. Flag-based termination of one worker: with `numLogs = 0` and a sink and
limiter that never fail, if the reads of the flag return true `n` times and
then false, the worker runs exactly `n` iterations, each starting with its one
read, and leaves the loop at read `n`: it makes `n + 1` reads and exactly `n`
export calls, none after the read that returned false. -/
theorem flag_termination (w : worker) (env : WorkerEnv) (n fuel : Nat)
    (h0 : w.numLogs = 0) (hexp : ∀ m, env.exportOk m = true)
    (hwait : ∀ m, env.waitOk m = true)
    (htrue : ∀ m, m < n → env.running m = true) (hfalse : env.running n = false)
    (hfuel : n < fuel) :
    (simulateLogs w env fuel).trace =
        Op.newLimiter w.limitPerSecond 1 ::
          (((List.range' 1 n).map (fun (m : Nat) => iteration (int64Wrap (m : Int)) false)).flatten
            ++ [Op.load false] ++ [Op.info (int64Wrap (n : Int)), Op.wgDone])
      ∧ (simulateLogs w env fuel).ending = Ending.stopped (int64Wrap (n : Int))
      ∧ exports (simulateLogs w env fuel).trace = n
      ∧ loads (simulateLogs w env fuel).trace = n + 1 :=
  simulateLogs_flag w env n fuel h0 hexp hwait htrue hfalse hfuel

/-- Witness of C5: the flag reads true twice and then false. -/
theorem flag_termination_witness :
    (simulateLogs ⟨0, 5, Limit.Inf, 0⟩
        ⟨fun m => decide (m < 2), fun _ => true, fun _ => true⟩ 3).trace =
        Op.newLimiter Limit.Inf 1 ::
          (((List.range' 1 2).map (fun (m : Nat) => iteration (int64Wrap (m : Int)) false)).flatten
            ++ [Op.load false] ++ [Op.info (int64Wrap ((2 : Nat) : Int)), Op.wgDone])
      ∧ (simulateLogs ⟨0, 5, Limit.Inf, 0⟩
          ⟨fun m => decide (m < 2), fun _ => true, fun _ => true⟩ 3).ending
          = Ending.stopped (int64Wrap ((2 : Nat) : Int))
      ∧ exports (simulateLogs ⟨0, 5, Limit.Inf, 0⟩
          ⟨fun m => decide (m < 2), fun _ => true, fun _ => true⟩ 3).trace = 2
      ∧ loads (simulateLogs ⟨0, 5, Limit.Inf, 0⟩
          ⟨fun m => decide (m < 2), fun _ => true, fun _ => true⟩ 3).trace = 2 + 1 :=
  flag_termination ⟨0, 5, Limit.Inf, 0⟩ ⟨fun m => decide (m < 2), fun _ => true, fun _ => true⟩
    2 3 rfl (fun _ => rfl) (fun _ => rfl) (fun m hm => by simpa using hm) (by decide)
    (by decide)

/-- C6. Fail-fast: in any iteration, a failed export (or a failed limiter wait)
is followed by `logger.Fatal` and the worker ends there in the fatal outcome:
nothing follows in its trace, so no further export is attempted, and the trace
holds neither the log of a final count nor `wg.Done()`.  With a flag that
reads true first and a sink that fails at once, the worker makes exactly one
export call. -/
theorem fail_fast (w : worker) (env : WorkerEnv) (fuel : Nat) :
    (∀ (n : Nat) (i : Int) (f : Nat), env.running n = true → env.exportOk n = false →
        loop w env (f + 1) n i
          = ([Op.load true, Op.build, Op.exportCall false, Op.fatal], LoopExit.fatal))
    ∧ (∀ (n : Nat) (i : Int) (f : Nat), env.running n = true → env.exportOk n = true →
        env.waitOk n = false →
        loop w env (f + 1) n i
          = ([Op.load true, Op.build, Op.exportCall true, Op.wait false, Op.fatal],
              LoopExit.fatal))
    ∧ (∀ (pre post : List Op) (x : Op),
        (simulateLogs w env fuel).trace = pre ++ x :: post → isFailed x = true →
          post = [Op.fatal] ∧ (simulateLogs w env fuel).ending = Ending.fatal
            ∧ Op.wgDone ∉ (simulateLogs w env fuel).trace
            ∧ ∀ i, Op.info i ∉ (simulateLogs w env fuel).trace)
    ∧ (env.running 0 = true → env.exportOk 0 = false → 0 < fuel →
        (simulateLogs w env fuel).trace
            = [Op.newLimiter w.limitPerSecond 1, Op.load true, Op.build,
                Op.exportCall false, Op.fatal]
          ∧ (simulateLogs w env fuel).ending = Ending.fatal
          ∧ exports (simulateLogs w env fuel).trace = 1) := by
  refine ⟨?_, ?_, ?_, ?_⟩
  · intro n i f hr he
    simp [loop, hr, he]
  · intro n i f hr he hw
    simp [loop, hr, he, hw]
  · intro pre post x ht hx
    obtain ⟨iters, tail, hs, hcase⟩ := simulateLogs_shape w env fuel
    have hmem : x ∈ (simulateLogs w env fuel).trace := by
      rw [ht]
      simp
    have hxb : x ∉ blocks iters := by
      intro hb
      have h1 := inBlock_of_mem_blocks iters x hb
      rw [not_inBlock_of_isFailed x hx] at h1
      exact Bool.noConfusion h1
    have hnd : Op.wgDone ∉ blocks iters := fun hb => by
      have := inBlock_of_mem_blocks iters _ hb
      simp [inBlock] at this
    have hni : ∀ i, Op.info i ∉ blocks iters := fun i hb => by
      have := inBlock_of_mem_blocks iters _ hb
      simp [inBlock] at this
    have hff : failFast (simulateLogs w env fuel).trace = true := by
      rw [hs]
      simp only [failFast, isFailed, Bool.not_false, Bool.true_or, Bool.true_and]
      rw [failFast_blocks_append]
      rcases hcase with ⟨_, h⟩ | ⟨j, _, h | h⟩ | ⟨_, h | h⟩ <;> subst h <;> simp [failFast, isFailed]
    refine ⟨failFast_split pre _ post x hff ht hx, ?_⟩
    rw [hs] at hmem ⊢
    simp only [List.mem_cons, List.mem_append] at hmem ⊢
    rcases hcase with ⟨_, h⟩ | ⟨j, _, h | h⟩ | ⟨he, h | h⟩
    · subst h
      rcases hmem with h | h | h
      · subst h; simp [isFailed] at hx
      · exact absurd h hxb
      · simp at h
    · subst h
      rcases hmem with h | h | h
      · subst h; simp [isFailed] at hx
      · exact absurd h hxb
      · simp at h
        rcases h with h | h <;> subst h <;> simp [isFailed] at hx
    · subst h
      rcases hmem with h | h | h
      · subst h; simp [isFailed] at hx
      · exact absurd h hxb
      · simp at h
        rcases h with h | h | h <;> subst h <;> simp [isFailed] at hx
    · subst h
      refine ⟨he, ?_, ?_⟩
      · simp [hnd]
      · intro i
        simp [hni i]
    · subst h
      refine ⟨he, ?_, ?_⟩
      · simp [hnd]
      · intro i
        simp [hni i]
  · intro hr he hf
    obtain ⟨f, rfl⟩ : ∃ f, fuel = f + 1 := ⟨fuel - 1, by omega⟩
    simp [simulateLogs, loop, hr, he, exports, isExport, List.countP_cons]

/-- Witness of C6: a sink that always fails, the flag reading true. -/
theorem fail_fast_witness :
    (simulateLogs ⟨3, 0, Limit.Inf, 0⟩ ⟨fun _ => true, fun _ => false, fun _ => true⟩ 4).trace
        = [Op.newLimiter Limit.Inf 1, Op.load true, Op.build, Op.exportCall false, Op.fatal]
      ∧ (simulateLogs ⟨3, 0, Limit.Inf, 0⟩
          ⟨fun _ => true, fun _ => false, fun _ => true⟩ 4).ending = Ending.fatal
      ∧ exports (simulateLogs ⟨3, 0, Limit.Inf, 0⟩
          ⟨fun _ => true, fun _ => false, fun _ => true⟩ 4).trace = 1 :=
  (fail_fast ⟨3, 0, Limit.Inf, 0⟩ ⟨fun _ => true, fun _ => false, fun _ => true⟩ 4).2.2.2
    rfl rfl (by decide)

/-- C7. Rate-limit resolution: every worker started by `Run` carries the limit
`rate.Inf` when `Rate == 0` (which is not the zero rate) and the limit
`rate.Limit(c.Rate)` otherwise; the first action of each worker creates its
limiter with that limit and burst 1, no worker creates another one, and the
orchestrator creates none. -/
theorem rate_limit_resolution (c : Config) (w : worker) (env : WorkerEnv) (fuel : Nat)
    (hw : Op.go w ∈ (Run c).trace) :
    (c.Rate = 0 → w.limitPerSecond = Limit.Inf)
    ∧ (c.Rate ≠ 0 → w.limitPerSecond = Limit.ofRate c.Rate)
    ∧ Limit.Inf ≠ Limit.ofRate 0
    ∧ (∃ rest, (simulateLogs w env fuel).trace = Op.newLimiter w.limitPerSecond 1 :: rest
        ∧ ∀ op, op ∈ rest → isNewLimiter op = false)
    ∧ (∀ op, op ∈ (Run c).trace → isNewLimiter op = false) := by
  rcases Run_cases c with ⟨_, _, hr⟩ | ⟨_, c1, hr, hrate, _, _, _⟩
  · rw [hr] at hw
    simp at hw
  · rw [hr] at hw ⊢
    obtain ⟨i, _, hwi⟩ := mem_runBody_go _ w hw
    have hlim : w.limitPerSecond = resolveLimit c1 := by
      rw [hwi]
    refine ⟨?_, ?_, ?_, ?_, ?_⟩
    · intro h0
      rw [hlim]
      simp [resolveLimit, hrate, h0]
    · intro h0
      rw [hlim]
      simp [resolveLimit, hrate, h0]
    · intro h
      cases h
    · obtain ⟨iters, tail, hs, hcase⟩ := simulateLogs_shape w env fuel
      refine ⟨blocks iters ++ tail, hs, ?_⟩
      intro op hop
      rw [List.mem_append] at hop
      rcases hop with h | h
      · exact not_isNewLimiter_of_inBlock op (inBlock_of_mem_blocks iters op h)
      · rcases hcase with ⟨_, ht⟩ | ⟨j, _, ht | ht⟩ | ⟨_, ht | ht⟩ <;> subst ht <;>
          simp at h
        · rcases h with h | h <;> subst h <;> rfl
        · rcases h with h | h | h <;> subst h <;> rfl
        · rcases h with h | h | h | h <;> subst h <;> rfl
        · rcases h with h | h | h | h | h <;> subst h <;> rfl
    · intro op hop
      rcases mem_runBody_trace _ op hop with h | h | h | h | h | ⟨_, h | h⟩ | h
      · rw [h]
        unfold logged
        split <;> rfl
      · rw [h]; rfl
      · rw [h]; rfl
      · rw [h]; rfl
      · exact not_isNewLimiter_of_isSpawn op h
      · rw [h]; rfl
      · rw [h]; rfl
      · rw [h]; rfl

/-- Witness of C7: an unthrottled count-based run with one worker. -/
theorem rate_limit_resolution_witness :
    (⟨1, 0, Limit.Inf, 0⟩ : worker).limitPerSecond = Limit.Inf :=
  (rate_limit_resolution ⟨1, 0, 0, 1⟩ ⟨1, 0, Limit.Inf, 0⟩
    ⟨fun _ => true, fun _ => true, fun _ => true⟩ 1 (by decide)).1 rfl

/-- C8. Completion barrier balance, for a valid configuration with
`WorkerCount = W`: `Run` performs `wg.Add(1)` and starts a worker exactly `W`
times (never when `W <= 0`), with indices `0..W-1` and the same `numLogs`,
limit and `totalDuration` for all, so the counter stands at `W` when the
orchestrator waits; a worker that returns calls `wg.Done()` exactly once, as
its last action, and a worker that does not return never calls it.  Hence at
any moment after the last start the counter is zero exactly when every one of
the `W` workers has returned. -/
theorem barrier_balance (c : Config) (world : World) (fuel : Nat) (progress : Nat → Nat)
    (hvalid : (Run c).err = none) :
    (Run c).trace
        = [logged (Run c).cfg, Op.newWaitGroup, Op.newFlag true, Op.newResource]
            ++ ((List.range c.WorkerCount.toNat).map
                  (fun i => [Op.wgAdd 1, Op.go (workerOf (Run c).cfg i)])).flatten
            ++ timed (Run c).cfg ++ [Op.wgWait]
    ∧ spawnedWorkers (Run c).trace
        = (List.range c.WorkerCount.toNat).map (workerOf (Run c).cfg)
    ∧ (c.WorkerCount ≤ 0 → spawnedWorkers (Run c).trace = [])
    ∧ (∀ i : Nat, (workerOf (Run c).cfg i).numLogs = (Run c).cfg.NumLogs
        ∧ (workerOf (Run c).cfg i).limitPerSecond = resolveLimit c
        ∧ (workerOf (Run c).cfg i).totalDuration = c.TotalDuration
        ∧ (workerOf (Run c).cfg i).index = (i : Int))
    ∧ barrier (Run c).trace = (c.WorkerCount.toNat : Int)
    ∧ (runSystem c world fuel).workers.length = c.WorkerCount.toNat
    ∧ (∀ e, e ∈ (runSystem c world fuel).workers →
        (e.isStopped = true → ∃ body, e.trace = body ++ [Op.wgDone] ∧ Op.wgDone ∉ body)
        ∧ (e.isStopped = false → Op.wgDone ∉ e.trace))
    ∧ (barrier ((runSystem c world fuel).snapshot progress) = 0 ↔
        ∀ k e, (runSystem c world fuel).workers[k]? = some e →
          e.isStopped = true ∧ e.trace.length ≤ progress k) := by
  rcases Run_cases c with ⟨_, _, hr⟩ | ⟨_, c1, hr, hrate, hwc, hdur, _⟩
  · rw [hr] at hvalid
    cases hvalid
  · have hcfg : (Run c).cfg = c1 := by rw [hr, runBody_cfg]
    have htr : (Run c).trace = (runBody c1).trace := by rw [hr]
    have hsp : spawnedWorkers (Run c).trace
        = (List.range c.WorkerCount.toNat).map (workerOf (Run c).cfg) := by
      rw [htr, hcfg, spawnedWorkers_runBody, hwc]
    have hlen : (runSystem c world fuel).workers.length = c.WorkerCount.toNat := by
      rw [runSystem_workers, runWorkers, length_runWorkersFrom, hsp]
      simp
    have hbar : barrier (Run c).trace = (c.WorkerCount.toNat : Int) := by
      rw [htr, barrier_runBody, hwc]
    have hdone : ∀ e, e ∈ (runSystem c world fuel).workers → DoneOnce e := by
      intro e he
      rw [runSystem_workers] at he
      exact doneOnce_of_mem_runWorkers _ world fuel e he
    refine ⟨?_, hsp, ?_, ?_, hbar, hlen, ?_, ?_⟩
    · rw [htr, hcfg, runBody_trace, ← hwc]
      rfl
    · intro hle
      rw [hsp, Int.toNat_of_nonpos hle]
      rfl
    · intro i
      rw [hcfg]
      exact ⟨rfl, resolveLimit_congr c c1 hrate, hdur, rfl⟩
    · intro e he
      obtain ⟨h1, h2⟩ := hdone e he
      refine ⟨fun hs => ?_, fun hs hmem => ?_⟩
      · obtain ⟨body, hb, hz⟩ := h1 hs
        refine ⟨body, hb, fun hmem => ?_⟩
        have := hz _ hmem
        simp [wgDelta] at this
      · have := h2 hs _ hmem
        simp [wgDelta] at this
    · obtain ⟨hge, hiff⟩ := barrier_progressOf progress (runSystem c world fuel).workers 0 hdone
      simp only [SystemRun.snapshot, barrier_append, runSystem_orchestrator, hbar]
      rw [hlen] at hge hiff
      simp only [Nat.zero_add] at hiff
      rw [← hiff]
      constructor <;> intro h <;> omega

/-- Witness of C8: a count-based run with two workers; both have returned and
the counter is back at zero. -/
theorem barrier_balance_witness :
    barrier ((runSystem ⟨2, 0, 0, 1⟩ ⟨fun _ _ => true, fun _ _ => true, fun _ => 0⟩ 1).snapshot
        (fun _ => 8)) = 0 :=
  (barrier_balance ⟨2, 0, 0, 1⟩ ⟨fun _ _ => true, fun _ _ => true, fun _ => 0⟩ 1
    (fun _ => 8) rfl).2.2.2.2.2.2.2.mpr (by
      intro k e h
      have hw : (runSystem ⟨2, 0, 0, 1⟩ ⟨fun _ _ => true, fun _ _ => true, fun _ => 0⟩ 1).workers
          = [⟨[Op.newLimiter Limit.Inf 1, Op.load true, Op.build, Op.exportCall true,
                Op.wait true, Op.countCheck 1 true, Op.info 1, Op.wgDone], Ending.stopped 1⟩,
             ⟨[Op.newLimiter Limit.Inf 1, Op.load true, Op.build, Op.exportCall true,
                Op.wait true, Op.countCheck 1 true, Op.info 1, Op.wgDone], Ending.stopped 1⟩] := by
        decide
      rw [hw] at h
      rcases k with _ | _ | k
      · simp at h
        subst h
        decide
      · simp at h
        subst h
        decide
      · simp at h)

/-- C9, as stated, fails: a worker with `numLogs = 1` makes its export call
with no `limiter.Wait` before it; the wait comes after the export. -/
theorem wait_before_export_counterexample :
    (simulateLogs ⟨1, 0, Limit.Inf, 0⟩ ⟨fun _ => true, fun _ => true, fun _ => true⟩ 1).trace
        = [Op.newLimiter Limit.Inf 1, Op.load true, Op.build, Op.exportCall true,
            Op.wait true, Op.countCheck 1 true, Op.info 1, Op.wgDone]
      ∧ ¬ AcquiresBeforeExports
          (simulateLogs ⟨1, 0, Limit.Inf, 0⟩
            ⟨fun _ => true, fun _ => true, fun _ => true⟩ 1).trace := by
  have ht : (simulateLogs ⟨1, 0, Limit.Inf, 0⟩
      ⟨fun _ => true, fun _ => true, fun _ => true⟩ 1).trace
        = [Op.newLimiter Limit.Inf 1, Op.load true, Op.build, Op.exportCall true,
            Op.wait true, Op.countCheck 1 true, Op.info 1, Op.wgDone] := by decide
  refine ⟨ht, ?_⟩
  intro h
  obtain ⟨op, hop, hw⟩ := h [Op.newLimiter Limit.Inf 1, Op.load true, Op.build]
    [Op.wait true, Op.countCheck 1 true, Op.info 1, Op.wgDone] true (by rw [ht]; rfl)
  simp at hop
  rcases hop with h | h | h <;> subst h <;> simp [isWait] at hw

/-- C9, amended. Order of steps inside a worker: after creating its limiter, a
worker performs iterations made, in this order, of the flag read, the record
construction, the export, the limiter wait and the count check; the trace ends
with the actions of the way the loop was left.  The limiter wait follows the
export of its iteration, and no limiter wait comes before the first export. -/
theorem order_of_steps (w : worker) (env : WorkerEnv) (fuel : Nat) :
    (∃ (iters : List (Int × Bool)) (tail : List Op),
      (simulateLogs w env fuel).trace
          = Op.newLimiter w.limitPerSecond 1 ::
              ((iters.map (fun p =>
                  [Op.load true, Op.build, Op.exportCall true, Op.wait true,
                    Op.countCheck p.1 p.2])).flatten ++ tail) ∧
      (tail = []
        ∨ (∃ j, tail = [Op.info j, Op.wgDone])
        ∨ (∃ j, tail = [Op.load false, Op.info j, Op.wgDone])
        ∨ tail = [Op.load true, Op.build, Op.exportCall false, Op.fatal]
        ∨ tail = [Op.load true, Op.build, Op.exportCall true, Op.wait false, Op.fatal]))
    ∧ (∀ op, op ∈ beforeFirstExport (simulateLogs w env fuel).trace → isWait op = false) := by
  obtain ⟨iters, tail, hs, hcase⟩ := simulateLogs_shape w env fuel
  have htail : tail = []
        ∨ (∃ j, tail = [Op.info j, Op.wgDone])
        ∨ (∃ j, tail = [Op.load false, Op.info j, Op.wgDone])
        ∨ tail = [Op.load true, Op.build, Op.exportCall false, Op.fatal]
        ∨ tail = [Op.load true, Op.build, Op.exportCall true, Op.wait false, Op.fatal] := by
    rcases hcase with ⟨_, h⟩ | ⟨j, _, h | h⟩ | ⟨_, h | h⟩
    · exact Or.inl h
    · exact Or.inr (Or.inl ⟨j, h⟩)
    · exact Or.inr (Or.inr (Or.inl ⟨j, h⟩))
    · exact Or.inr (Or.inr (Or.inr (Or.inl h)))
    · exact Or.inr (Or.inr (Or.inr (Or.inr h)))
  refine ⟨⟨iters, tail, hs, htail⟩, ?_⟩
  intro op hop
  rw [hs] at hop
  cases iters with
  | nil =>
    rcases htail with h | ⟨j, h⟩ | ⟨j, h⟩ | h | h <;> subst h <;>
      simp [beforeFirstExport, blocks, isExport, List.takeWhile] at hop
    · subst hop; rfl
    · rcases hop with h | h | h <;> subst h <;> rfl
    · rcases hop with h | h | h | h <;> subst h <;> rfl
    · rcases hop with h | h | h <;> subst h <;> rfl
    · rcases hop with h | h | h <;> subst h <;> rfl
  | cons p iters =>
    simp [beforeFirstExport, blocks_cons, iteration, isExport, List.takeWhile] at hop
    rcases hop with h | h | h <;> subst h <;> rfl

/-- C10. Stop-flag lifecycle in `Run`, for a valid configuration: the flag is
created true before any worker is started; after the last worker is started
the orchestrator performs, when `TotalDuration > 0`, one `time.Sleep` of
`TotalDuration` and then one `Store(false)`, and nothing of the kind
otherwise; `wg.Wait()` comes last.  No worker ever writes the flag.  Hence in a
count-based run every read of the flag by a worker returns true, and in a
duration-based run a read returns true exactly when it is served before the
orchestrator's `Store`. -/
theorem stop_flag_lifecycle (c : Config) (hvalid : (Run c).err = none) :
    (∃ (first : Op) (spawned : List Op),
        (Run c).trace
          = [first, Op.newWaitGroup, Op.newFlag true, Op.newResource] ++ spawned
              ++ (if c.TotalDuration > 0 then [Op.sleep c.TotalDuration, Op.store false] else [])
              ++ [Op.wgWait]
        ∧ (first = Op.logUnthrottled ∨ ∃ l, first = Op.logLimited l)
        ∧ (∀ op, op ∈ spawned → isSpawn op = true)
        ∧ spawnedWorkers spawned = spawnedWorkers (Run c).trace)
    ∧ (∀ (w : worker) (env : WorkerEnv) (fuel : Nat) (op : Op),
        op ∈ (simulateLogs w env fuel).trace → isStore op = false ∧ ∀ b, op ≠ Op.newFlag b)
    ∧ (c.TotalDuration > 0 → ∀ (world : World) (j n : Nat),
        (workerEnv (Run c).trace world j).running n = decide (n < world.loadsBeforeStore j))
    ∧ (c.TotalDuration ≤ 0 →
        (∀ op, op ∈ (Run c).trace → isStore op = false ∧ ∀ d, op ≠ Op.sleep d)
        ∧ ∀ (world : World) (j n : Nat), (workerEnv (Run c).trace world j).running n = true) := by
  rcases Run_cases c with ⟨_, _, hr⟩ | ⟨_, c1, hr, _, _, hdur, _⟩
  · rw [hr] at hvalid
    cases hvalid
  · rw [hr]
    refine ⟨?_, ?_, ?_, ?_⟩
    · refine ⟨logged c1, spawnAll c1, ?_, ?_, isSpawn_of_mem_spawnAll _, ?_⟩
      · rw [runBody_trace]
        simp only [timed, hdur]
      · unfold logged
        split
        · exact Or.inl rfl
        · exact Or.inr ⟨_, rfl⟩
      · rw [spawnedWorkers_runBody]
        simp [spawnAll, spawnedWorkers_spawn]
    · intro w env fuel op hop
      obtain ⟨iters, tail, hs, hcase⟩ := simulateLogs_shape w env fuel
      rw [hs, List.mem_cons, List.mem_append] at hop
      rcases hop with h | h | h
      · subst h
        exact ⟨rfl, fun b hb => by cases hb⟩
      · exact not_flagWrite_of_inBlock op (inBlock_of_mem_blocks iters op h)
      · rcases hcase with ⟨_, ht⟩ | ⟨j, _, ht | ht⟩ | ⟨_, ht | ht⟩ <;> subst ht <;>
          simp at h
        · rcases h with h | h <;> subst h <;> exact ⟨rfl, fun b hb => by cases hb⟩
        · rcases h with h | h | h <;> subst h <;> exact ⟨rfl, fun b hb => by cases hb⟩
        · rcases h with h | h | h | h <;> subst h <;> exact ⟨rfl, fun b hb => by cases hb⟩
        · rcases h with h | h | h | h | h <;> subst h <;>
            exact ⟨rfl, fun b hb => by cases hb⟩
    · intro hd world j n
      rw [workerEnv_running_runBody, hdur]
      have hd1 : ¬ c.TotalDuration ≤ 0 := by omega
      simp [hd1]
    · intro hd
      refine ⟨?_, ?_⟩
      · intro op hop
        rcases mem_runBody_trace _ op hop with h | h | h | h | h | ⟨h, _⟩ | h
        · rw [h]
          refine ⟨not_isStore_logged _, fun d => ?_⟩
          unfold logged
          split <;> exact fun hb => by cases hb
        · rw [h]; exact ⟨rfl, fun d hb => by cases hb⟩
        · rw [h]; exact ⟨rfl, fun d hb => by cases hb⟩
        · rw [h]; exact ⟨rfl, fun d hb => by cases hb⟩
        · exact ⟨not_isStore_of_isSpawn op h, not_sleep_of_isSpawn op h⟩
        · rw [hdur] at h
          omega
        · rw [h]; exact ⟨rfl, fun d hb => by cases hb⟩
      · intro world j n
        rw [workerEnv_running_runBody, hdur]
        simp [hd]

/-- Witness of C10: a duration-based run with two workers; the second read of
the first worker comes after the orchestrator's `Store`. -/
theorem stop_flag_lifecycle_witness :
    (workerEnv (Run ⟨2, 0, 10, 0⟩).trace ⟨fun _ _ => true, fun _ _ => true, fun _ => 1⟩ 0).running 1
      = decide (1 < (⟨fun _ _ => true, fun _ _ => true, fun _ => 1⟩ : World).loadsBeforeStore 0) :=
  (stop_flag_lifecycle ⟨2, 0, 10, 0⟩ rfl).2.2.1 (by decide)
    ⟨fun _ _ => true, fun _ _ => true, fun _ => 1⟩ 0 1

end Logs
